import Mathlib

/-
Verification of the draft_wheel draft-allocation core against its
specification.

The Python modules `probability_calc.py` and `logic/draft_logic.py` are
shallowly embedded below.  Conventions of the embedding:

* Python `dict` (which preserves insertion order) is modelled as an
  association list `List (κ × β)`; `dict[k] = v` is `dinsert` (replace in
  place, or append a fresh key at the end), `dict[k]` read is `dlookup`.
  States built by the modelled operations keep their keys duplicate-free,
  matching Python's unique-key dictionaries.
* Python numbers (`int` and `float`) are modelled as `ℤ` and `ℚ`.  The sole
  transcendental, `math.exp`, is modelled as an explicit function parameter
  `expf : ℚ → ℚ`; every theorem that touches it assumes only `∀ x, 0 < expf x`,
  which holds for the real exponential and is all the source's arithmetic
  uses.  Exact rational arithmetic replaces IEEE doubles, so quantities the
  source computes up to floating drift are computed exactly here.
* `dict[k]` reads on an absent key raise `KeyError` in Python; the embedding
  totalises them with a default value and every theorem about such a read
  carries a hypothesis making the lookup succeed, so only the non-raising
  executions are reasoned about.
-/

namespace DraftWheel

/-! ### Association-list model of Python dict -/

/-- Lookup of a key, first match (Python `d[k]` read / `k in d`). -/
def dlookup {κ β : Type} [DecidableEq κ] : List (κ × β) → κ → Option β
  | [], _ => none
  | (k, v) :: rest, key => if k = key then some v else dlookup rest key

/-- Apply a function to the value at a key, leaving other entries alone
(used for Python in-place mutation of a dict entry). -/
def dmodify {κ β : Type} [DecidableEq κ] : List (κ × β) → κ → (β → β) → List (κ × β)
  | [], _, _ => []
  | (k, v) :: rest, key, f =>
      if k = key then (k, f v) :: dmodify rest key f else (k, v) :: dmodify rest key f

/-- Python `d[k] = v`: replace in place when the key exists, else append. -/
def dinsert {κ β : Type} [DecidableEq κ] (m : List (κ × β)) (k : κ) (v : β) : List (κ × β) :=
  if (dlookup m k).isSome then dmodify m k (fun _ => v) else m ++ [(k, v)]

/-- Keys of an association list. -/
def dkeys {κ β : Type} (m : List (κ × β)) : List κ := m.map Prod.fst

/-! ### Data model (mirrors the dictionaries of `draft_logic.py`) -/

/-- One entry of `all_players`: `{"mmr": int, "roles": [(roleName, priority), ...]}`. -/
structure PlayerInfo where
  mmr : ℤ
  roles : List (String × ℤ)
deriving DecidableEq, Repr

/-- One entry of `teams`: `{"players": [(name, role)], "average_mmr": float}`. -/
structure TeamData where
  players : List (String × String)
  average_mmr : ℚ
deriving DecidableEq, Repr

/-- One entry of `draft_history`. -/
structure DraftEvent where
  team_id : String
  player_name : String
  role : String
deriving DecidableEq, Repr

/-- The mutable state of `DraftLogic`. -/
structure DraftState where
  players_by_role : List (String × List String)
  all_players : List (String × PlayerInfo)
  teams : List (String × TeamData)
  draft_history : List DraftEvent
deriving DecidableEq, Repr

/-- Configuration values read by `DraftLogic` (from the YAML config). -/
structure Config where
  global_average_mmr : ℚ
  team_size : ℤ
  role_preference_weights : List (ℤ × ℚ)
  logistic_midpoint : ℚ
  logistic_slope : ℚ
  blend_alpha : ℚ
  randomness_levels : List (ℤ × ℚ)
  roles : List String
deriving DecidableEq, Repr

/-- The default `PlayerInfo` used to totalise raising dict reads. -/
def defaultInfo : PlayerInfo := ⟨0, []⟩

/-- Record of a player, `KeyError` modelled by the default. -/
def recOf (st : DraftState) (p : String) : PlayerInfo :=
  (dlookup st.all_players p).getD defaultInfo

/-- Pool of a role (`players_by_role[r]`, `[]` when the key is absent). -/
def poolOf (st : DraftState) (r : String) : List String :=
  (dlookup st.players_by_role r).getD []

/-- All names currently on some team, in team-then-roster order. -/
def rosterNames (st : DraftState) : List String :=
  st.teams.flatMap (fun t => t.2.players.map Prod.fst)

/-! ### `probability_calc.py` -/

/-- Source: `logistic_ratio_weight`; `math.exp` is the parameter `expf`. -/
def logistic_ratio_weight (expf : ℚ → ℚ) (ratio midpoint slope : ℚ) : ℚ :=
  1 / (1 + expf (slope * (ratio - midpoint)))

/-- Source: `get_role_preference_factor`.  The Python loop returns at the first
role entry matching `role`, and `preference_weights.get(prio, 0.0)` there. -/
def get_role_preference_factor (player_info : PlayerInfo) (role : String)
    (preference_weights : List (ℤ × ℚ)) : ℚ :=
  match player_info.roles.find? (fun rp => rp.1 = role) with
  | some (_, prio) => (dlookup preference_weights prio).getD 0
  | none => 0

/-- The floating tolerance `1e-8` of the source. -/
def tol : ℚ := 1 / 100000000

/-- The body of the `for player_name in players_in_role` loop of
`compute_probabilities`: skip a candidate whose preference factor is ≤ 0,
otherwise produce its raw weight. -/
def raw_weight (expf : ℚ → ℚ) (role : String) (all_players : List (String × PlayerInfo))
    (role_preference_weights : List (ℤ × ℚ))
    (logistic_midpoint logistic_slope blend_alpha ideal_mmr : ℚ)
    (player_name : String) : Option (String × ℚ) :=
  let info := (dlookup all_players player_name).getD defaultInfo
  let pmmr : ℚ := info.mmr
  let pref_factor := get_role_preference_factor info role role_preference_weights
  if pref_factor ≤ 0 then none else
  let diff := |pmmr - ideal_mmr|
  let ratio := if ideal_mmr ≤ 0 then (99999 : ℚ) else diff / ideal_mmr
  let mmr_weight := logistic_ratio_weight expf ratio logistic_midpoint logistic_slope
  let final_w :=
    if |blend_alpha - 1| < tol then mmr_weight * pref_factor
    else blend_alpha * mmr_weight + (1 - blend_alpha) * pref_factor
  some (player_name, final_w)

/-- The tail of `compute_probabilities` from `if not raw_weights` on: empty
check, uniform fallback for non-positive total, the randomness floor, and the
final drift-normalization pass. -/
def normalize_probs (base_randomness : ℚ) (raw_weights : List (String × ℚ)) :
    List (String × ℚ) :=
  if raw_weights = [] then [] else
  let total_w : ℚ := (raw_weights.map Prod.snd).sum
  if total_w ≤ 0 then
    raw_weights.map (fun pw => (pw.1, 1 / (raw_weights.length : ℚ)))
  else
  let N : ℚ := raw_weights.length
  let final_probs : List (String × ℚ) := raw_weights.map (fun pw =>
    (pw.1, (pw.2 / total_w) * (1 - base_randomness) + base_randomness / N))
  let s : ℚ := (final_probs.map Prod.snd).sum
  if |s - 1| > tol then final_probs.map (fun pv => (pv.1, pv.2 / s)) else final_probs

/-- Source: `compute_probabilities` of `probability_calc.py`.  `team_data` is
passed as its two read fields (`len(team_data["players"])` and
`team_data["average_mmr"]`); the returned dict is an association list in the
same iteration order.  A name of `players_in_role` absent from `all_players`
would raise `KeyError` in Python; here it reads `defaultInfo` (roles `[]`,
hence preference 0) — theorems use it only under pool-membership hypotheses
that rule the case out. -/
def compute_probabilities (expf : ℚ → ℚ) (team_players_count : ℕ) (team_average_mmr : ℚ)
    (role : String) (all_players : List (String × PlayerInfo)) (players_in_role : List String)
    (global_average_mmr : ℚ) (base_randomness : ℚ) (team_size : ℤ)
    (role_preference_weights : List (ℤ × ℚ))
    (logistic_midpoint logistic_slope blend_alpha : ℚ) : List (String × ℚ) :=
  let current_n : ℤ := team_players_count
  let current_sum : ℚ := team_average_mmr * current_n
  let picks_left : ℤ := team_size - current_n
  if picks_left ≤ 0 then [] else
  let desired_total_for_full_team : ℚ := team_size * global_average_mmr
  let remaining_mmr : ℚ := desired_total_for_full_team - current_sum
  let ideal_mmr : ℚ := remaining_mmr / (picks_left : ℚ)
  normalize_probs base_randomness
    (players_in_role.filterMap (raw_weight expf role all_players role_preference_weights
      logistic_midpoint logistic_slope blend_alpha ideal_mmr))

/-! ### Role-grammar parsing and printing (`draft_logic.py`) -/

/-- Python `int(s)`: surrounding whitespace is stripped, failure raises
(`none` here).  Modelled by Lean's decimal parser on the trimmed string. -/
def pyInt (s : String) : Option ℤ := s.trim.toInt?

/-- Source: the body of the `for part in parts` loop of
`_parse_roles_with_priority`.  `part.index("(")`/`part.index(")")` are the
first occurrences; slices are taken on the character list. -/
def parseRolePart (part : String) : String × ℤ :=
  let part := part.trim
  let cs := part.toList
  if cs.contains '(' ∧ cs.contains ')' then
    let idx1 := cs.findIdx (· = '(')
    let idx2 := cs.findIdx (· = ')')
    let rname := ((cs.take idx1).asString).trim
    let prio_str := (((cs.take idx2).drop (idx1 + 1)).asString).trim
    match pyInt prio_str with
    | some prio => (rname, prio)
    | none => (rname, 1)
  else (part, 1)

/-- Source: `_parse_roles_with_priority`. -/
def parse_roles_with_priority (roles_str : String) : List (String × ℤ) :=
  if roles_str = "" then []
  else (roles_str.splitOn "|").map parseRolePart

/-- Source: `_roles_to_string`: `[("carry",1),("mid",2)] => "carry(1)|mid(2)"`. -/
def roles_to_string (role_list : List (String × ℤ)) : String :=
  String.intercalate "|" (role_list.map (fun rp => rp.1 ++ "(" ++ toString rp.2 ++ ")"))

/-! ### State operations of `DraftLogic` -/

/-- Average used by `_assign_to_team` / `undo_last_pick` / `add_captain_to_team`:
sum of the members' `all_players` ratings over the member count.  All call
sites guard the empty case (returning 0), matching ℚ's `x / 0 = 0` as well. -/
def avgOf (all_players : List (String × PlayerInfo)) (players : List (String × String)) : ℚ :=
  if players = [] then 0
  else (players.map (fun pr => (((dlookup all_players pr.1).getD defaultInfo).mmr : ℚ))).sum
         / (players.length : ℚ)

/-- Source: `register_team`. -/
def register_team (st : DraftState) (team_id : String) : DraftState :=
  if (dlookup st.teams team_id).isSome then st
  else { st with teams := st.teams ++ [(team_id, ⟨[], 0⟩)] }

/-- Source: `_remove_player`: for every role list, remove the first occurrence
of `p` if present (`list.remove`). -/
def remove_player (st : DraftState) (p : String) : DraftState :=
  { st with players_by_role := st.players_by_role.map (fun rl => (rl.1, rl.2.erase p)) }

/-- Source: `_assign_to_team`.  Python raises `KeyError` on an unknown
`team_id`; here the modification is a no-op then, and theorems carry a
registered-team hypothesis. -/
def assign_to_team (st : DraftState) (team_id : String) (pname role : String) : DraftState :=
  { st with teams := dmodify st.teams team_id (fun td =>
      let ps := td.players ++ [(pname, role)]
      ⟨ps, avgOf st.all_players ps⟩) }

/-- Source: the segment scan of `pick_player_from_position`:
first `(p, startp, endp)` with `startp <= position < endp`. -/
def resolveSegments (position_pct : ℚ) (segments : List (String × ℚ × ℚ)) : Option String :=
  (segments.find? (fun seg => position_pct ≥ seg.2.1 ∧ position_pct < seg.2.2)).map Prod.fst

/-- Source: `pick_player_from_position`.  Returns the winner (if any) and the
next state. -/
def pick_player_from_position (st : DraftState) (team_id role : String)
    (position_pct : ℚ) (segments : List (String × ℚ × ℚ)) : Option String × DraftState :=
  match resolveSegments position_pct segments with
  | none => (none, st)
  | some p =>
      let st₁ := remove_player st p
      let st₂ := assign_to_team st₁ team_id p role
      let st₃ := { st₂ with draft_history := st₂.draft_history ++ [⟨team_id, p, role⟩] }
      (some p, st₃)

/-- Append `pname` to the pool of `rname`, creating the key at the end when
absent (the `if rname not in self.players_by_role` branch). -/
def pool_append (pools : List (String × List String)) (rname pname : String) :
    List (String × List String) :=
  if (dlookup pools rname).isSome then dmodify pools rname (fun l => l ++ [pname])
  else pools ++ [(rname, [pname])]

/-- Source: `undo_last_pick`.  `draft_history.pop()` takes the most recent
event; lookups of the event's team and player are totalised with defaults
(Python would raise `KeyError`), theorems supply validity hypotheses. -/
def undo_last_pick (st : DraftState) : Option String × DraftState :=
  match st.draft_history.getLast? with
  | none => (none, st)
  | some last =>
      let hist := st.draft_history.dropLast
      let tid := last.team_id
      let pname := last.player_name
      let role := last.role
      let teams₁ := dmodify st.teams tid (fun td =>
        let ps := td.players.erase (pname, role)
        ⟨ps, if ps = [] then 0 else avgOf st.all_players ps⟩)
      let pools₁ := ((recOf st pname).roles).foldl
        (fun pl rp => pool_append pl rp.1 pname) st.players_by_role
      (some pname,
       { st with teams := teams₁, players_by_role := pools₁, draft_history := hist })

/-- Source: `add_captain_to_team`. -/
def add_captain_to_team (st : DraftState) (team_id captain_name : String)
    (captain_mmr : ℤ) : DraftState :=
  let st₁ := register_team st team_id
  let st₂ :=
    if (dlookup st₁.all_players captain_name).isSome then st₁
    else { st₁ with all_players := st₁.all_players ++ [(captain_name, ⟨captain_mmr, []⟩)] }
  let st₃ := { st₂ with teams := dmodify st₂.teams team_id (fun td =>
      let ps := td.players ++ [(captain_name, "(Captain)")]
      ⟨ps, if ps.length > 0 then avgOf st₂.all_players ps else 0⟩) }
  { st₃ with draft_history := st₃.draft_history ++ [⟨team_id, captain_name, "(Captain)"⟩] }

/-- Source: `DraftLogic.compute_probabilities` (the method): unknown team or
role and an empty pool short-circuit to the empty dict, then the module-level
function is called with the config values. -/
def state_compute_probabilities (expf : ℚ → ℚ) (cfg : Config) (st : DraftState)
    (team_id role : String) : List (String × ℚ) :=
  if dlookup st.teams team_id = none then [] else
  if dlookup st.players_by_role role = none then [] else
  let team_data := (dlookup st.teams team_id).getD ⟨[], 0⟩
  let players_in_role := (dlookup st.players_by_role role).getD []
  if players_in_role = [] then []
  else
    let n : ℤ := team_data.players.length
    let base_rand := (dlookup cfg.randomness_levels n).getD (3 / 10)
    compute_probabilities expf team_data.players.length team_data.average_mmr role
      st.all_players players_in_role cfg.global_average_mmr base_rand cfg.team_size
      cfg.role_preference_weights cfg.logistic_midpoint cfg.logistic_slope
      cfg.blend_alpha

/-- Source: `get_ideal_mmr_for_pick`.  `self.teams[team_id]` raises on an
unknown team; totalised with the empty team, theorems hypothesise presence. -/
def get_ideal_mmr_for_pick (cfg : Config) (st : DraftState) (team_id : String) : ℚ :=
  let team_data := (dlookup st.teams team_id).getD ⟨[], 0⟩
  let current_n : ℤ := team_data.players.length
  if current_n ≥ cfg.team_size then 0
  else
    let current_sum := team_data.average_mmr * (current_n : ℚ)
    let desired_total_for_full_team := (cfg.team_size : ℚ) * cfg.global_average_mmr
    let remaining_mmr := desired_total_for_full_team - current_sum
    let picks_left := cfg.team_size - current_n
    if picks_left ≤ 0 then 0
    else remaining_mmr / ((picks_left : ℤ) : ℚ)

/-! ### Persistence (`save_state` / `load_state` / `load_player_data`)

CSV files are modelled as lists of rows; DictReader/DictWriter field handling
is modelled by row structures. -/

/-- A row of the remaining-pool file (`name, mmr, roles`). -/
structure RemRow where
  name : String
  mmr : ℤ
  roles : String
deriving DecidableEq, Repr

/-- A row of the team-assignment file (`team_id, name, assigned_role, mmr`). -/
structure TeamRow where
  team_id : String
  name : String
  assigned_role : String
  mmr : ℤ
deriving DecidableEq, Repr

/-- Source: `save_state`.  The remaining file holds every `all_players` entry
whose name is on no team, in dict order; the team file holds one row per
roster entry, teams in dict order. -/
def save_state (st : DraftState) : List RemRow × List TeamRow :=
  let assigned := rosterNames st
  ( st.all_players.filterMap (fun pi =>
      if pi.1 ∈ assigned then none
      else some ⟨pi.1, pi.2.mmr, roles_to_string pi.2.roles⟩)
  , st.teams.flatMap (fun td =>
      td.2.players.map (fun pr =>
        ⟨td.1, pr.1, pr.2, ((dlookup st.all_players pr.1).getD defaultInfo).mmr⟩)) )

/-- The state-clearing prologue shared by `load_state` and
`load_player_data`: pool lists are cleared value-wise (keys are kept),
players, teams and history are emptied. -/
def clear_state (st : DraftState) : DraftState :=
  { players_by_role := st.players_by_role.map (fun rl => (rl.1, []))
  , all_players := []
  , teams := []
  , draft_history := [] }

/-- Add one parsed remaining-row: record inserted, name appended to the pool
of each parsed role (shared by `load_state` and `load_player_data`). -/
def load_rem_row (st : DraftState) (name : String) (mmr : ℤ)
    (parsed : List (String × ℤ)) : DraftState :=
  { st with
    all_players := dinsert st.all_players name ⟨mmr, parsed⟩
  , players_by_role := parsed.foldl (fun pl rp => pool_append pl rp.1 name)
      st.players_by_role }

/-- Phase 2 of `load_state`: group the team rows by `team_id`, keeping
first-seen team order and row order within a team. -/
def group_team_rows (rows : List TeamRow) : List (String × List (String × String × ℤ)) :=
  rows.foldl (fun acc row =>
    let tid := row.team_id.trim
    let entry := (row.name.trim, row.assigned_role.trim, row.mmr)
    if (dlookup acc tid).isSome then dmodify acc tid (fun l => l ++ [entry])
    else acc ++ [(tid, [entry])]) []

/-- Phase 3 of `load_state`, inner loop body: create a record for a drafted
name when absent (roles empty), remove the name from every pool, append it to
its team (average recomputed only in phase 4). -/
def load_team_entry (st : DraftState) (tid : String)
    (e : String × String × ℤ) : DraftState :=
  let st₁ :=
    if (dlookup st.all_players e.1).isSome then st
    else { st with all_players := st.all_players ++ [(e.1, ⟨e.2.2, []⟩)] }
  let st₂ := remove_player st₁ e.1
  { st₂ with teams := dmodify st₂.teams tid (fun td => ⟨td.players ++ [(e.1, e.2.1)], td.average_mmr⟩) }

/-- Source: `load_state`, from already-field-parsed rows (`int(row["mmr"])`
succeeded; C9 treats the failing parse, which `load_state` shares with
`load_player_data`). -/
def load_state (st : DraftState) (remRows : List RemRow) (teamRows : List TeamRow) :
    DraftState :=
  let st₀ := clear_state st
  let st₁ := remRows.foldl (fun s row =>
    load_rem_row s row.name.trim row.mmr (parse_roles_with_priority row.roles.trim)) st₀
  let groups := group_team_rows teamRows
  let st₂ := groups.foldl (fun s g =>
    let s' := register_team s g.1
    g.2.foldl (fun s'' e => load_team_entry s'' g.1 e) s') st₁
  { st₂ with teams := st₂.teams.map (fun td =>
      (td.1, ⟨td.2.players,
              if td.2.players = [] then 0 else avgOf st₂.all_players td.2.players⟩)) }

/-- A raw row of the player-data file, fields as read by `csv.DictReader`
(the `mmr` cell still a string, parsed by `int(...)`). -/
structure RawRow where
  name : String
  mmr : String
  roles : String
deriving DecidableEq, Repr

/-- The row loop of `load_player_data`: rows are consumed in order until the
first row whose `mmr` fails `int(...)`; the raised `ValueError` is caught
outside the loop, so the rows already loaded stay in place and the rest are
dropped. -/
def load_rows : DraftState → List RawRow → DraftState
  | st, [] => st
  | st, row :: rest =>
      match pyInt row.mmr with
      | none => st
      | some m =>
          load_rows (load_rem_row st row.name.trim m
            (parse_roles_with_priority row.roles.trim)) rest

/-- Source: `load_player_data`: clear everything, then load rows until the
first malformed one. -/
def load_player_data (st : DraftState) (rows : List RawRow) : DraftState :=
  load_rows (clear_state st) rows

/-! ### Invariants

`Inv` is the inductive strengthening of the spec's global invariants
(player/team exclusivity and the pool-membership characterisation), stated
with list-bounded quantifiers so that it is decidable on concrete states. -/

/-- Roles a player's record lists (role names only). -/
def roleNamesOf (st : DraftState) (p : String) : List String :=
  (recOf st p).roles.map Prod.fst

/-- Pool of a role read from a raw pools association list. -/
def poolGet (pools : List (String × List String)) (r : String) : List String :=
  (dlookup pools r).getD []

/-- The state invariant maintained by the draft operations. -/
structure Inv (st : DraftState) : Prop where
  roster_nodup : (rosterNames st).Nodup
  pools_nodup : ∀ rl ∈ st.players_by_role, (rl.2 : List String).Nodup
  pool_sub : ∀ rl ∈ st.players_by_role, ∀ p ∈ (rl.2 : List String),
      rl.1 ∈ roleNamesOf st p ∧ p ∉ rosterNames st
  pool_complete : ∀ pi ∈ st.all_players, (pi.1 : String) ∉ rosterNames st →
      ∀ rp ∈ (pi.2 : PlayerInfo).roles, pi.1 ∈ poolOf st rp.1
  roster_known : ∀ p ∈ rosterNames st, (dlookup st.all_players p).isSome = true
  hist_team : ∀ e ∈ st.draft_history, (dlookup st.teams e.team_id).isSome = true
  hist_mem : ∀ e ∈ st.draft_history,
      (e.player_name, e.role) ∈ ((dlookup st.teams e.team_id).getD ⟨[], 0⟩).players
  hist_nodup : (st.draft_history.map DraftEvent.player_name).Nodup
  roles_nodup : ∀ pi ∈ st.all_players, (((pi.2 : PlayerInfo)).roles.map Prod.fst).Nodup
  pool_keys_nodup : (dkeys st.players_by_role).Nodup
  team_keys_nodup : (dkeys st.teams).Nodup
  player_keys_nodup : (dkeys st.all_players).Nodup

/-- Spec §3: `Team.average_rating` is consistent with `Team.players`. -/
def AvgOk (st : DraftState) : Prop :=
  ∀ td ∈ st.teams, (td.2 : TeamData).average_mmr = avgOf st.all_players td.2.players

/-- Two states agreeing on everything, with role pools compared by
membership (list order inside a pool may differ). -/
def StateEquiv (st st' : DraftState) : Prop :=
  (∀ r p, p ∈ poolOf st r ↔ p ∈ poolOf st' r) ∧
  st.all_players = st'.all_players ∧ st.teams = st'.teams ∧
  st.draft_history = st'.draft_history

/-- The arguments of one pick call. -/
structure PickArgs where
  team_id : String
  role : String
  position : ℚ
  segments : List (String × ℚ × ℚ)

/-- The state after a pick call. -/
def pickStep (st : DraftState) (a : PickArgs) : DraftState :=
  (pick_player_from_position st a.team_id a.role a.position a.segments).2

/-- A pick whose team is registered and whose resolved winner is currently in
some role pool (the spec's fresh-segments requirement). -/
def PickOk (st : DraftState) (a : PickArgs) : Prop :=
  (dlookup st.teams a.team_id).isSome = true ∧
  ∃ p, resolveSegments a.position a.segments = some p ∧ ∃ r, p ∈ poolOf st r

/-- A sequence of picks, each valid in the state the previous ones produce. -/
inductive ValidPicks : DraftState → List PickArgs → Prop
  | nil (st : DraftState) : ValidPicks st []
  | cons (st : DraftState) (a : PickArgs) (rest : List PickArgs) :
      PickOk st a → ValidPicks (pickStep st a) rest → ValidPicks st (a :: rest)

/-- Apply a sequence of picks. -/
def pickIter (st : DraftState) (args : List PickArgs) : DraftState :=
  args.foldl pickStep st

/-- Apply `undo_last_pick` `n` times. -/
def undoIter : DraftState → ℕ → DraftState
  | st, 0 => st
  | st, n + 1 => undoIter (undo_last_pick st).2 n

/-- Contiguity of a segment list from position `a` up to 100: each segment
starts where the previous ended and has positive width. -/
def Contig : ℚ → List (String × ℚ × ℚ) → Prop
  | a, [] => a = 100
  | a, seg :: rest => seg.2.1 = a ∧ seg.2.1 < seg.2.2 ∧ Contig seg.2.2 rest

instance instDecidableContig : (a : ℚ) → (l : List (String × ℚ × ℚ)) → Decidable (Contig a l)
  | a, [] => decidable_of_iff (a = 100) (by simp [Contig])
  | a, seg :: rest =>
      have : Decidable (Contig seg.2.2 rest) := instDecidableContig _ _
      decidable_of_iff (seg.2.1 = a ∧ seg.2.1 < seg.2.2 ∧ Contig seg.2.2 rest)
        (by simp [Contig])

/-! ### Concrete states and configurations used by witnesses -/

/-- The stock configuration of the repository's YAML (team size 5, preference
weights 0.9/0.6/0.1, logistic midpoint/slope defaults, blend 0.5). -/
def cfgStd : Config :=
  { global_average_mmr := 4000
  , team_size := 5
  , role_preference_weights := [(1, 9/10), (2, 6/10), (3, 1/10)]
  , logistic_midpoint := 3/2
  , logistic_slope := 1/500
  , blend_alpha := 1/2
  , randomness_levels := [(0, 1/2), (1, 2/5), (2, 3/10), (3, 1/5), (4, 1/10)]
  , roles := ["carry", "mid", "offlane", "soft_support", "hard_support"] }

/-- A state for the C3 scenario: team `T` holds two players rated 3000 and
5000 (average 4000); two more players remain in the pools. -/
def stScenario : DraftState :=
  { players_by_role := [("carry", ["C1x"]), ("mid", ["M1x"]), ("offlane", [])]
  , all_players :=
      [ ("P1", ⟨3000, [("carry", 1)]⟩), ("P2", ⟨5000, [("mid", 1)]⟩)
      , ("C1x", ⟨4200, [("carry", 1)]⟩), ("M1x", ⟨3800, [("mid", 1)]⟩) ]
  , teams := [("T", ⟨[("P1", "carry"), ("P2", "mid")], 4000⟩)]
  , draft_history :=
      [⟨"T", "P1", "carry"⟩, ⟨"T", "P2", "mid"⟩] }

/-- A state whose sole `carry` candidate `D` lists the role at priority 4,
which the stock preference-weight table does not cover. -/
def stPref : DraftState :=
  { players_by_role := [("carry", ["D"])]
  , all_players := [("D", ⟨4000, [("carry", 4)]⟩)]
  , teams := [("T", ⟨[], 0⟩)]
  , draft_history := [] }

/-- A fresh two-candidate state used to exercise pick/undo. -/
def stUndo : DraftState :=
  { players_by_role := [("carry", ["A", "B"])]
  , all_players := [("A", ⟨3000, [("carry", 1)]⟩), ("B", ⟨3500, [("carry", 1)]⟩)]
  , teams := [("T", ⟨[], 0⟩)]
  , draft_history := [] }

/-- Segments giving `A` the range `[0,50)` and `B` the range `[50,100)`. -/
def segsUndo : List (String × ℚ × ℚ) := [("A", 0, 50), ("B", 50, 100)]

/-- The fold step of `group_team_rows`, named so the grouping loop can be
reasoned about row by row. -/
def group_step (acc : List (String × List (String × String × ℤ))) (row : TeamRow) :
    List (String × List (String × String × ℤ)) :=
  if (dlookup acc row.team_id.trim).isSome then
    dmodify acc row.team_id.trim
      (fun l => l ++ [(row.name.trim, row.assigned_role.trim, row.mmr)])
  else acc ++ [(row.team_id.trim, [(row.name.trim, row.assigned_role.trim, row.mmr)])]

/-- Phase 3 of `load_state` for one grouped team: register it, then load each
of its rows. -/
def load_group (s : DraftState) (g : String × List (String × String × ℤ)) : DraftState :=
  g.2.foldl (fun s' e => load_team_entry s' g.1 e) (register_team s g.1)

/-- Well-formedness of a player-data file: distinct trimmed names, and
duplicate-free role names on every row. -/
def RowsWF (rows : List RawRow) : Prop :=
  ((rows.map (fun r => r.name.trim)).Nodup) ∧
  ∀ row ∈ rows, ((parse_roles_with_priority row.roles.trim).map Prod.fst).Nodup

/-- A mid-draft state used by the persistence scenarios: two drafted players
(one of them with a recorded role list), one undrafted candidate, and one
still-empty team `E`. -/
def stSave : DraftState :=
  { players_by_role := [("carry", ["C9x"]), ("mid", [])]
  , all_players :=
      [ ("P1", ⟨300, [("carry", 1)]⟩), ("P2", ⟨500, [("mid", 2)]⟩)
      , ("C9x", ⟨420, [("carry", 1)]⟩) ]
  , teams := [("T", ⟨[("P1", "carry"), ("P2", "mid")], 400⟩), ("E", ⟨[], 0⟩)]
  , draft_history := [⟨"T", "P1", "carry"⟩, ⟨"T", "P2", "mid"⟩] }

/-- A player-data file whose middle row has a non-numeric `mmr` cell. -/
def rows9 : List RawRow :=
  [⟨"Alice", "300", "carry(1)"⟩, ⟨"Bob", "xyz", "mid(1)"⟩, ⟨"Carol", "400", "mid(1)"⟩]

/-- `stSave` without the empty team: every save/load hypothesis holds. -/
def stRound : DraftState :=
  { players_by_role := [("carry", ["C9x"]), ("mid", [])]
  , all_players :=
      [ ("P1", ⟨300, [("carry", 1)]⟩), ("P2", ⟨500, [("mid", 2)]⟩)
      , ("C9x", ⟨420, [("carry", 1)]⟩) ]
  , teams := [("T", ⟨[("P1", "carry"), ("P2", "mid")], 400⟩)]
  , draft_history := [⟨"T", "P1", "carry"⟩, ⟨"T", "P2", "mid"⟩] }

end DraftWheel

/-! ## Theorems -/

namespace DraftWheel

/-! ### Association-list lemmas -/

theorem dlookup_append {κ β : Type} [DecidableEq κ] (m₁ m₂ : List (κ × β)) (k : κ) :
    dlookup (m₁ ++ m₂) k = ((dlookup m₁ k).or (dlookup m₂ k)) := by
  induction m₁ with
  | nil => simp [dlookup]
  | cons hd tl ih =>
      obtain ⟨k', v⟩ := hd
      by_cases h : k' = k <;> simp [dlookup, h, ih]

theorem dlookup_isSome_iff_mem_dkeys {κ β : Type} [DecidableEq κ]
    (m : List (κ × β)) (k : κ) : (dlookup m k).isSome ↔ k ∈ dkeys m := by
  induction m with
  | nil => simp [dlookup, dkeys]
  | cons hd tl ih =>
      obtain ⟨k', v⟩ := hd
      by_cases h : k' = k
      · subst h
        simp [dlookup, dkeys]
      · simp only [dlookup, dkeys, List.map_cons, List.mem_cons, if_neg h]
        rw [ih]
        simp [dkeys, Ne.symm h]

theorem dlookup_dmodify_self {κ β : Type} [DecidableEq κ]
    (m : List (κ × β)) (k : κ) (f : β → β) :
    dlookup (dmodify m k f) k = (dlookup m k).map f := by
  induction m with
  | nil => simp [dlookup, dmodify]
  | cons hd tl ih =>
      obtain ⟨k', v⟩ := hd
      by_cases h : k' = k <;> simp [dlookup, dmodify, h, ih]

theorem dlookup_dmodify_ne {κ β : Type} [DecidableEq κ]
    (m : List (κ × β)) (k k' : κ) (f : β → β) (h : k ≠ k') :
    dlookup (dmodify m k f) k' = dlookup m k' := by
  induction m with
  | nil => simp [dmodify]
  | cons hd tl ih =>
      obtain ⟨k₀, v⟩ := hd
      by_cases h₀ : k₀ = k
      · subst h₀
        simp [dmodify, dlookup, h, ih]
      · by_cases h₁ : k₀ = k' <;>
          simp [dmodify, dlookup, h₀, h₁, Ne.symm h, ih]

theorem dkeys_dmodify {κ β : Type} [DecidableEq κ]
    (m : List (κ × β)) (k : κ) (f : β → β) : dkeys (dmodify m k f) = dkeys m := by
  induction m with
  | nil => rfl
  | cons hd tl ih =>
      obtain ⟨k', v⟩ := hd
      by_cases h : k' = k <;> simp [dmodify, dkeys, h] at ih ⊢ <;> exact ih

theorem dlookup_dinsert_self {κ β : Type} [DecidableEq κ]
    (m : List (κ × β)) (k : κ) (v : β) : dlookup (dinsert m k v) k = some v := by
  unfold dinsert
  by_cases h : (dlookup m k).isSome
  · rw [if_pos h, dlookup_dmodify_self]
    obtain ⟨w, hw⟩ := Option.isSome_iff_exists.mp h
    simp [hw]
  · rw [if_neg h, dlookup_append]
    rw [Option.not_isSome_iff_eq_none] at h
    simp [h, dlookup]

theorem dlookup_dinsert_ne {κ β : Type} [DecidableEq κ]
    (m : List (κ × β)) (k k' : κ) (v : β) (h : k ≠ k') :
    dlookup (dinsert m k v) k' = dlookup m k' := by
  unfold dinsert
  by_cases hs : (dlookup m k).isSome
  · rw [if_pos hs, dlookup_dmodify_ne _ _ _ _ h]
  · rw [if_neg hs, dlookup_append]
    simp [dlookup, h]

/-! ### C3: the balancing-target formula -/

/-- C3: for a registered team with fewer members than `team_size`, the ideal
rating equals
`(team_size * global_average_rating - average_rating * len(players)) /
 (team_size - len(players))`, and it is 0 once the team has `team_size` or
more members. -/
theorem claim3_ideal_rating (cfg : Config) (st : DraftState) (tid : String) (td : TeamData)
    (h : dlookup st.teams tid = some td) :
    (((td.players.length : ℤ) < cfg.team_size) →
      get_ideal_mmr_for_pick cfg st tid =
        ((cfg.team_size : ℚ) * cfg.global_average_mmr
            - td.average_mmr * (td.players.length : ℚ)) /
          ((cfg.team_size : ℚ) - (td.players.length : ℚ))) ∧
    ((cfg.team_size ≤ (td.players.length : ℤ)) →
      get_ideal_mmr_for_pick cfg st tid = 0) := by
  constructor
  · intro hlt
    unfold get_ideal_mmr_for_pick
    rw [h]
    simp only [Option.getD_some]
    rw [if_neg (by exact not_le.mpr hlt), if_neg (by omega)]
    push_cast
    ring_nf
  · intro hge
    unfold get_ideal_mmr_for_pick
    rw [h]
    simp only [Option.getD_some]
    rw [if_pos hge]

/-- Witness for C3 at the spec's scenario: `team_size = 5`,
`global_average_rating = 4000`, two members rated 3000 and 5000 — the ideal
rating of the next pick is exactly 4000. -/
theorem claim3_ideal_rating_witness :
    get_ideal_mmr_for_pick cfgStd stScenario "T" = 4000 := by
  have h := (claim3_ideal_rating cfgStd stScenario "T"
    ⟨[("P1", "carry"), ("P2", "mid")], 4000⟩ (by decide)).1 (by decide)
  rw [h]
  norm_num [cfgStd]

/-! ### C8: tolerant error handling -/

/-- C8: an unknown team id, an unknown role, and an empty role pool all make
`compute_probabilities` return the empty mapping, and a pick whose position
falls in no segment returns `None`; none of these paths mutates any state
(the compute path is read-only by construction, and the no-match pick returns
the state unchanged). -/
theorem claim8_tolerant_errors (expf : ℚ → ℚ) (cfg : Config) (st : DraftState)
    (team_id role : String) (pos : ℚ) (segments : List (String × ℚ × ℚ)) :
    (dlookup st.teams team_id = none →
      state_compute_probabilities expf cfg st team_id role = []) ∧
    (dlookup st.players_by_role role = none →
      state_compute_probabilities expf cfg st team_id role = []) ∧
    (dlookup st.players_by_role role = some [] →
      state_compute_probabilities expf cfg st team_id role = []) ∧
    (resolveSegments pos segments = none →
      pick_player_from_position st team_id role pos segments = (none, st)) := by
  refine ⟨?_, ?_, ?_, ?_⟩
  · intro h
    unfold state_compute_probabilities
    rw [if_pos h]
  · intro h
    unfold state_compute_probabilities
    by_cases ht : dlookup st.teams team_id = none
    · rw [if_pos ht]
    · rw [if_neg ht, if_pos h]
  · intro h
    unfold state_compute_probabilities
    by_cases ht : dlookup st.teams team_id = none
    · rw [if_pos ht]
    · rw [if_neg ht, if_neg (by simp [h])]
      simp [h]
  · intro h
    unfold pick_player_from_position
    rw [h]

/-- Witness for C8: on the scenario state, an unknown team (`Z`), an unknown
role (`jungle`) and the empty `offlane` pool give the empty mapping, and a
pick whose position (150) lies in no segment returns `None` with the state
unchanged. -/
theorem claim8_tolerant_errors_witness :
    state_compute_probabilities (fun _ => 1) cfgStd stScenario "Z" "carry" = [] ∧
    state_compute_probabilities (fun _ => 1) cfgStd stScenario "T" "jungle" = [] ∧
    state_compute_probabilities (fun _ => 1) cfgStd stScenario "T" "offlane" = [] ∧
    pick_player_from_position stScenario "T" "carry" 150 [("A", 0, 100)]
      = (none, stScenario) :=
  ⟨ (claim8_tolerant_errors (fun _ => 1) cfgStd stScenario "Z" "carry" 0 []).1 (by decide)
  , (claim8_tolerant_errors (fun _ => 1) cfgStd stScenario "T" "jungle" 0 []).2.1 (by decide)
  , (claim8_tolerant_errors (fun _ => 1) cfgStd stScenario "T" "offlane" 0 []).2.2.1 (by decide)
  , (claim8_tolerant_errors (fun _ => 1) cfgStd stScenario "T" "carry" 150
      [("A", 0, 100)]).2.2.2 (by decide) ⟩

/-! ### C2: segment resolution -/

theorem contig_le_100 : ∀ (a : ℚ) (l : List (String × ℚ × ℚ)), Contig a l → a ≤ 100
  | _, [], h => le_of_eq h
  | _, seg :: rest, h => by
      obtain ⟨h1, h2, h3⟩ := h
      have := contig_le_100 seg.2.2 rest h3
      linarith

theorem contig_start_ge : ∀ (a : ℚ) (l : List (String × ℚ × ℚ)), Contig a l →
    ∀ seg ∈ l, a ≤ seg.2.1
  | _, [], _, _, hmem => absurd hmem (List.not_mem_nil _)
  | a, s0 :: rest, h, seg, hmem => by
      obtain ⟨h1, h2, h3⟩ := h
      rcases List.mem_cons.mp hmem with hh | hh
      · subst hh
        exact le_of_eq h1.symm
      · have := contig_start_ge s0.2.2 rest h3 seg hh
        linarith

theorem contig_end_le_100 (a : ℚ) (l : List (String × ℚ × ℚ)) (h : Contig a l) :
    ∀ seg ∈ l, seg.2.2 ≤ 100 := by
  induction l generalizing a with
  | nil => intro seg hmem; exact absurd hmem (List.not_mem_nil _)
  | cons s0 rest ih =>
      obtain ⟨h1, h2, h3⟩ := h
      intro seg hmem
      rcases List.mem_cons.mp hmem with hh | hh
      · subst hh
        exact contig_le_100 _ _ h3
      · exact ih _ h3 seg hh

theorem resolve_total_unique (segs : List (String × ℚ × ℚ)) (a pos : ℚ)
    (hc : Contig a segs) (h1 : a ≤ pos) (h2 : pos < 100) :
    ∃ p, resolveSegments pos segs = some p ∧
      (segs.filter (fun seg => seg.2.1 ≤ pos ∧ pos < seg.2.2)).map Prod.fst = [p] := by
  induction segs generalizing a with
  | nil =>
      exfalso
      have : a = 100 := hc
      linarith
  | cons s0 rest ih =>
      obtain ⟨hs, hw, hrest⟩ := hc
      by_cases hlt : pos < s0.2.2
      · have hge : s0.2.1 ≤ pos := by rw [hs]; exact h1
        refine ⟨s0.1, ?_, ?_⟩
        · unfold resolveSegments
          rw [List.find?_cons_of_pos _ (by simp [hge, hlt])]
          rfl
        · rw [List.filter_cons_of_pos (by simp [hge, hlt])]
          have hnil : rest.filter (fun seg => decide (seg.2.1 ≤ pos ∧ pos < seg.2.2)) = [] := by
            rw [List.filter_eq_nil_iff]
            intro seg hmem
            have hstart := contig_start_ge _ _ hrest seg hmem
            simp only [decide_eq_true_eq, not_and]
            intro hle
            linarith
          rw [hnil]
          rfl
      · have hnot : ¬(pos ≥ s0.2.1 ∧ pos < s0.2.2) := fun hcon => hlt hcon.2
        have hred : resolveSegments pos (s0 :: rest) = resolveSegments pos rest := by
          unfold resolveSegments
          rw [List.find?_cons_of_neg _ (by simpa using hnot)]
        have hfil : (s0 :: rest).filter (fun seg => decide (seg.2.1 ≤ pos ∧ pos < seg.2.2))
            = rest.filter (fun seg => decide (seg.2.1 ≤ pos ∧ pos < seg.2.2)) :=
          List.filter_cons_of_neg (by simp [hlt])
        rw [hred, hfil]
        exact ih s0.2.2 hrest (not_lt.mp hlt)

/-- C2 (amended): for a non-empty contiguous segment list covering `[0,100]`,
every position in `[0,100)` resolves to the player of the unique segment
whose `[start, end)` interval contains it (the filter below is a singleton,
and `resolveSegments`, the source's first-match scan, returns its player);
a position of exactly 100, however, resolves to no one — the code has no
clamp to the final segment. -/
theorem claim2_segment_resolution (segs : List (String × ℚ × ℚ))
    (_hne : segs ≠ []) (hc : Contig 0 segs) :
    (∀ pos : ℚ, 0 ≤ pos → pos < 100 →
      ∃ p, resolveSegments pos segs = some p ∧
        (segs.filter (fun seg => seg.2.1 ≤ pos ∧ pos < seg.2.2)).map Prod.fst = [p]) ∧
    resolveSegments 100 segs = none := by
  refine ⟨fun pos h0 h100 => resolve_total_unique segs 0 pos hc h0 h100, ?_⟩
  have hnone : segs.find? (fun seg => decide ((100 : ℚ) ≥ seg.2.1 ∧ (100 : ℚ) < seg.2.2))
      = none := by
    rw [List.find?_eq_none]
    intro seg hmem
    have := contig_end_le_100 0 segs hc seg hmem
    simp only [ge_iff_le, decide_eq_true_eq, not_and]
    intro _
    linarith
  unfold resolveSegments
  rw [hnone]
  rfl

/-- C2 counterexample: the claim says a position of exactly 100 is clamped to
the final segment; on the single segment `("A", 0, 100)` the code resolves
100 to no one, and the corresponding pick returns `None` leaving the state
unchanged. -/
theorem claim2_position100_counterexample :
    resolveSegments 100 [("A", (0 : ℚ), (100 : ℚ))] = none ∧
    pick_player_from_position stScenario "T" "carry" 100 [("C1x", 0, 100)]
      = (none, stScenario) := by
  constructor <;> decide

/-- Witness for C2 on the segments `A:[0,50) B:[50,100)`: position 75
resolves to `B`, position 100 to no one. -/
theorem claim2_segment_resolution_witness :
    resolveSegments 75 [("A", (0 : ℚ), 50), ("B", 50, 100)] = some "B" ∧
    resolveSegments 100 [("A", (0 : ℚ), 50), ("B", 50, 100)] = none := by
  obtain ⟨h1, h2⟩ := claim2_segment_resolution [("A", (0 : ℚ), 50), ("B", 50, 100)]
    (by decide) (by decide)
  obtain ⟨p, hp, hf⟩ := h1 75 (by norm_num) (by norm_num)
  have he : [p] = ["B"] := by
    rw [← hf]
    decide
  have hpB : p = "B" := by simpa using he
  rw [hpB] at hp
  exact ⟨hp, h2⟩

/-! ### C1: probability distributions sum to 1 -/

theorem sum_map_affine (l : List ℚ) (c d : ℚ) :
    (l.map (fun w => w * c + d)).sum = l.sum * c + (l.length : ℚ) * d := by
  induction l with
  | nil => simp
  | cons x xs ih =>
      simp only [List.map_cons, List.sum_cons, ih, List.length_cons]
      push_cast
      ring

theorem raw_weight_fst (expf : ℚ → ℚ) (role : String)
    (all_players : List (String × PlayerInfo)) (weights : List (ℤ × ℚ))
    (mid slope ba ideal : ℚ) (name : String) (pr : String × ℚ)
    (h : raw_weight expf role all_players weights mid slope ba ideal name = some pr) :
    pr.1 = name := by
  unfold raw_weight at h
  by_cases hp : get_role_preference_factor ((dlookup all_players name).getD defaultInfo)
      role weights ≤ 0
  · simp only [hp, if_pos] at h
    exact absurd h (by simp)
  · simp only [hp, if_neg, if_false] at h
    cases h
    rfl

theorem raw_weight_of_pref_pos (expf : ℚ → ℚ) (role : String)
    (all_players : List (String × PlayerInfo)) (weights : List (ℤ × ℚ))
    (mid slope ba ideal : ℚ) (name : String)
    (h : 0 < get_role_preference_factor ((dlookup all_players name).getD defaultInfo)
      role weights) :
    ∃ w, raw_weight expf role all_players weights mid slope ba ideal name = some (name, w) := by
  unfold raw_weight
  rw [if_neg (not_le.mpr h)]
  exact ⟨_, rfl⟩

theorem raw_weight_pos (expf : ℚ → ℚ) (role : String)
    (all_players : List (String × PlayerInfo)) (weights : List (ℤ × ℚ))
    (mid slope ba ideal : ℚ) (name : String) (pr : String × ℚ)
    (hexp : ∀ x, 0 < expf x) (hba0 : 0 ≤ ba) (hba1 : ba ≤ 1)
    (h : raw_weight expf role all_players weights mid slope ba ideal name = some pr) :
    0 < pr.2 := by
  unfold raw_weight at h
  by_cases hp : get_role_preference_factor ((dlookup all_players name).getD defaultInfo)
      role weights ≤ 0
  · simp only [hp, if_pos] at h
    exact absurd h (by simp)
  · simp only [hp, if_neg, if_false] at h
    cases h
    have hpref := not_le.mp hp
    have hmw : 0 < logistic_ratio_weight expf
        (if ideal ≤ 0 then (99999 : ℚ)
         else |(((dlookup all_players name).getD defaultInfo).mmr : ℚ) - ideal| / ideal)
        mid slope := by
      unfold logistic_ratio_weight
      have := hexp (slope *
        ((if ideal ≤ 0 then (99999 : ℚ)
          else |(((dlookup all_players name).getD defaultInfo).mmr : ℚ) - ideal| / ideal)
          - mid))
      positivity
    by_cases hb : |ba - 1| < tol
    · simp only [hb, if_pos]
      exact mul_pos hmw hpref
    · simp only [hb, if_neg, if_false]
      have htol : (0 : ℚ) < tol := by norm_num [tol]
      have hlt : ba < 1 := by
        rcases lt_or_eq_of_le hba1 with h1 | h1
        · exact h1
        · exfalso
          apply hb
          rw [h1]
          simpa using htol
      exact add_pos_of_nonneg_of_pos (mul_nonneg hba0 (le_of_lt hmw))
        (mul_pos (by linarith) hpref)

theorem normalize_probs_sum_one (br : ℚ) (raw : List (String × ℚ))
    (hne : raw ≠ []) (hpos : ∀ pr ∈ raw, 0 < pr.2) :
    normalize_probs br raw ≠ [] ∧ ((normalize_probs br raw).map Prod.snd).sum = 1 := by
  have hlenpos : 0 < raw.length := List.length_pos.mpr hne
  have hlenQ : ((raw.length : ℚ)) ≠ 0 := by
    exact_mod_cast Nat.pos_iff_ne_zero.mp hlenpos
  have htotal : 0 < (raw.map Prod.snd).sum := by
    apply List.sum_pos
    · intro x hx
      obtain ⟨pr, hpr, rfl⟩ := List.mem_map.mp hx
      exact hpos pr hpr
    · simpa using hne
  have hsum : ((raw.map (fun pw =>
      (pw.1, pw.2 / (raw.map Prod.snd).sum * (1 - br) + br / (raw.length : ℚ)))).map
        Prod.snd).sum = 1 := by
    rw [List.map_map]
    have hcongr : raw.map (Prod.snd ∘ fun pw =>
        (pw.1, pw.2 / (raw.map Prod.snd).sum * (1 - br) + br / (raw.length : ℚ)))
        = (raw.map Prod.snd).map (fun w =>
            w * ((1 - br) / (raw.map Prod.snd).sum) + br / (raw.length : ℚ)) := by
      rw [List.map_map]
      apply List.map_congr_left
      intro pw _
      simp only [Function.comp_apply]
      ring
    rw [hcongr, sum_map_affine, List.length_map]
    rw [mul_div_assoc']
    rw [mul_comm ((raw.map Prod.snd).sum) (1 - br), mul_div_assoc]
    rw [div_self (ne_of_gt htotal)]
    field_simp
  unfold normalize_probs
  rw [if_neg hne, if_neg (not_le.mpr htotal)]
  simp only
  rw [hsum]
  have hcond : ¬ (|(1 : ℚ) - 1| > tol) := by norm_num [tol]
  rw [if_neg hcond]
  refine ⟨?_, hsum⟩
  simp only [ne_eq, List.map_eq_nil_iff]
  exact hne

/-- C1 (amended): for a registered team that still has picks left
(`len(players) < team_size`), a role whose pool retains at least one
candidate with positive preference weight, and a valid config
(`blend_alpha ∈ [0,1]`, a positive exponential), the mapping returned by
`compute_probabilities` is non-empty and its values sum to 1, hence lie
within the 1e-8 tolerance.  (Without the picks-left and retained-candidate
conditions the mapping can be empty — see the counterexample.) -/
theorem claim1_probabilities_sum_to_one (expf : ℚ → ℚ) (cfg : Config) (st : DraftState)
    (tid role : String) (td : TeamData) (pool : List String)
    (hexp : ∀ x, 0 < expf x)
    (hteam : dlookup st.teams tid = some td)
    (hpool : dlookup st.players_by_role role = some pool)
    (hnotfull : (td.players.length : ℤ) < cfg.team_size)
    (hba0 : 0 ≤ cfg.blend_alpha) (hba1 : cfg.blend_alpha ≤ 1)
    (hcand : ∃ p ∈ pool, 0 < get_role_preference_factor (recOf st p) role
      cfg.role_preference_weights) :
    state_compute_probabilities expf cfg st tid role ≠ [] ∧
    |((state_compute_probabilities expf cfg st tid role).map Prod.snd).sum - 1| ≤ tol := by
  obtain ⟨p0, hp0mem, hp0pref⟩ := hcand
  have hpoolne : pool ≠ [] := by
    intro hnil
    rw [hnil] at hp0mem
    exact absurd hp0mem (List.not_mem_nil _)
  have key : ∀ ideal br : ℚ,
      normalize_probs br (pool.filterMap (raw_weight expf role st.all_players
        cfg.role_preference_weights cfg.logistic_midpoint cfg.logistic_slope
        cfg.blend_alpha ideal)) ≠ [] ∧
      ((normalize_probs br (pool.filterMap (raw_weight expf role st.all_players
        cfg.role_preference_weights cfg.logistic_midpoint cfg.logistic_slope
        cfg.blend_alpha ideal))).map Prod.snd).sum = 1 := by
    intro ideal br
    apply normalize_probs_sum_one
    · obtain ⟨w, hw⟩ := raw_weight_of_pref_pos expf role st.all_players
        cfg.role_preference_weights cfg.logistic_midpoint cfg.logistic_slope
        cfg.blend_alpha ideal p0 hp0pref
      have hmem : (p0, w) ∈ pool.filterMap (raw_weight expf role st.all_players
          cfg.role_preference_weights cfg.logistic_midpoint cfg.logistic_slope
          cfg.blend_alpha ideal) :=
        List.mem_filterMap.mpr ⟨p0, hp0mem, hw⟩
      intro hnil
      rw [hnil] at hmem
      exact absurd hmem (List.not_mem_nil _)
    · intro pr hpr
      obtain ⟨name, _, hsome⟩ := List.mem_filterMap.mp hpr
      exact raw_weight_pos _ _ _ _ _ _ _ _ _ _ hexp hba0 hba1 hsome
  have hc : ¬ (cfg.team_size - ((td.players.length : ℕ) : ℤ) ≤ 0) := by omega
  simp only [state_compute_probabilities, compute_probabilities, hteam, hpool,
    Option.getD_some, if_neg hpoolne, if_neg hc]
  simp only [reduceCtorEq, if_false]
  refine ⟨(key _ _).1, ?_⟩
  rw [(key _ _).2]
  norm_num [tol]

/-- C1 counterexample: as stated the claim fails on the code in two ways.
With `team_size = 2` the scenario team is already full, so
`compute_probabilities` returns the empty mapping although the `carry` pool
is non-empty; and in `stPref` the sole `carry` candidate has priority 4,
which has no preference weight, so the candidate is excluded and the mapping
is again empty (its values sum to 0, not 1). -/
theorem claim1_counterexample :
    state_compute_probabilities (fun _ => 1) { cfgStd with team_size := 2 } stScenario
      "T" "carry" = [] ∧
    state_compute_probabilities (fun _ => 1) cfgStd stPref "T" "carry" = [] := by
  constructor <;> with_unfolding_all decide

/-- Witness for C1: on the scenario state (team `T` with 2 of 5 players,
pool `carry = [C1x]`, `C1x` at priority 1 with weight 0.9) the computed
mapping is non-empty and sums to 1 within tolerance. -/
theorem claim1_probabilities_sum_to_one_witness :
    state_compute_probabilities (fun _ => 1) cfgStd stScenario "T" "carry" ≠ [] ∧
    |((state_compute_probabilities (fun _ => 1) cfgStd stScenario "T" "carry").map
        Prod.snd).sum - 1| ≤ tol :=
  claim1_probabilities_sum_to_one (fun _ => 1) cfgStd stScenario "T" "carry"
    ⟨[("P1", "carry"), ("P2", "mid")], 4000⟩ ["C1x"]
    (fun _ => one_pos) (by decide) (by decide) (by with_unfolding_all decide)
    (by with_unfolding_all decide) (by with_unfolding_all decide)
    ⟨"C1x", by decide, by with_unfolding_all decide⟩

/-! ### C7: the captain's player record -/

/-- C7 counterexample: adding an unknown captain creates a record whose
role-priority list is empty, not one entry per configured role at priority 1
(the configured role list is non-empty, so the two differ). -/
theorem claim7_counterexample :
    dlookup (add_captain_to_team stScenario "T2" "Cap" 5000).all_players "Cap"
      = some ⟨5000, []⟩ ∧
    ([] : List (String × ℤ)) ≠ cfgStd.roles.map (fun r => (r, (1 : ℤ))) := by
  constructor <;> decide

/-- C7 (amended): captain-add with an unknown name creates a PlayerRecord
with the given rating and an empty role-priority set; consequently a later
undo restores the player into no role pool at all (the pools after
captain-add followed by undo are exactly the original pools). -/
theorem claim7_captain_record (st : DraftState) (tid name : String) (mmr : ℤ)
    (h : dlookup st.all_players name = none) :
    dlookup (add_captain_to_team st tid name mmr).all_players name = some ⟨mmr, []⟩ ∧
    (undo_last_pick (add_captain_to_team st tid name mmr)).2.players_by_role
      = st.players_by_role := by
  have hreg : (register_team st tid).all_players = st.all_players := by
    unfold register_team
    by_cases hr : (dlookup st.teams tid).isSome <;> simp [hr]
  have hlook : dlookup (add_captain_to_team st tid name mmr).all_players name
      = some ⟨mmr, []⟩ := by
    unfold add_captain_to_team
    simp only [hreg, h, Option.isSome_none, Bool.false_eq_true, if_false, if_neg]
    rw [dlookup_append, h, dlookup]
    simp
  refine ⟨hlook, ?_⟩
  have hpools : (add_captain_to_team st tid name mmr).players_by_role
      = st.players_by_role := by
    unfold add_captain_to_team register_team
    by_cases hr : (dlookup st.teams tid).isSome <;> simp [hr, h]
  have hhist : (add_captain_to_team st tid name mmr).draft_history
      = st.draft_history ++ [⟨tid, name, "(Captain)"⟩] := by
    unfold add_captain_to_team register_team
    by_cases hr : (dlookup st.teams tid).isSome <;> simp [hr, h]
  unfold undo_last_pick
  rw [hhist, List.getLast?_concat]
  simp only
  have hrec : recOf (add_captain_to_team st tid name mmr) name = ⟨mmr, []⟩ := by
    unfold recOf
    rw [hlook]
    rfl
  rw [hrec]
  simpa using hpools

/-- Witness for C7 on the scenario state: the captain record of `Cap` is
`⟨5000, []⟩` and captain-add followed by undo leaves the pools untouched. -/
theorem claim7_captain_record_witness :
    dlookup (add_captain_to_team stScenario "T2" "Cap" 5000).all_players "Cap"
      = some ⟨5000, []⟩ ∧
    (undo_last_pick (add_captain_to_team stScenario "T2" "Cap" 5000)).2.players_by_role
      = stScenario.players_by_role :=
  claim7_captain_record stScenario "T2" "Cap" 5000 (by decide)

/-! ### Further association-list lemmas -/

theorem dlookup_some_mem {κ β : Type} [DecidableEq κ] {m : List (κ × β)} {k : κ} {v : β}
    (h : dlookup m k = some v) : (k, v) ∈ m := by
  induction m with
  | nil => simp [dlookup] at h
  | cons hd tl ih =>
      obtain ⟨k', v'⟩ := hd
      by_cases hk : k' = k
      · subst hk
        simp [dlookup] at h
        simp [h]
      · simp only [dlookup, if_neg hk] at h
        exact List.mem_cons_of_mem _ (ih h)

theorem dlookup_eq_none_iff_not_mem {κ β : Type} [DecidableEq κ]
    (m : List (κ × β)) (k : κ) : dlookup m k = none ↔ k ∉ dkeys m := by
  rw [← dlookup_isSome_iff_mem_dkeys, Option.not_isSome_iff_eq_none]

theorem dlookup_eq_some_of_mem_nodup {κ β : Type} [DecidableEq κ] {m : List (κ × β)}
    {k : κ} {v : β} (hnd : (dkeys m).Nodup) (hmem : (k, v) ∈ m) :
    dlookup m k = some v := by
  induction m with
  | nil => cases hmem
  | cons hd tl ih =>
      obtain ⟨k', v'⟩ := hd
      simp only [dkeys, List.map_cons, List.nodup_cons] at hnd
      rcases List.mem_cons.mp hmem with he | hm
      · injection he with h1 h2
        subst h1
        subst h2
        simp [dlookup]
      · by_cases hk : k' = k
        · exfalso
          apply hnd.1
          rw [hk]
          exact List.mem_map_of_mem Prod.fst hm
        · simp only [dlookup, if_neg hk]
          exact ih hnd.2 hm

theorem dmodify_eq_map {κ β : Type} [DecidableEq κ] (m : List (κ × β)) (k : κ) (f : β → β) :
    dmodify m k f = m.map (fun kv => if kv.1 = k then (kv.1, f kv.2) else kv) := by
  induction m with
  | nil => rfl
  | cons hd tl ih =>
      obtain ⟨k', v'⟩ := hd
      by_cases hk : k' = k <;> simp [dmodify, hk, ih]

theorem dmodify_of_not_mem {κ β : Type} [DecidableEq κ] {m : List (κ × β)} {k : κ}
    (f : β → β) (h : k ∉ dkeys m) : dmodify m k f = m := by
  induction m with
  | nil => rfl
  | cons hd tl ih =>
      obtain ⟨k', v'⟩ := hd
      simp only [dkeys, List.map_cons, List.mem_cons, not_or] at h
      have hne : ¬ (k' = k) := fun he => h.1 he.symm
      unfold dmodify
      rw [if_neg hne, ih (by simpa [dkeys] using h.2)]

theorem dlookup_map_values {κ β γ : Type} [DecidableEq κ]
    (m : List (κ × β)) (f : β → γ) (k : κ) :
    dlookup (m.map (fun kv => (kv.1, f kv.2))) k = (dlookup m k).map f := by
  induction m with
  | nil => simp [dlookup]
  | cons hd tl ih =>
      obtain ⟨k', v'⟩ := hd
      by_cases hk : k' = k <;> simp [dlookup, hk, ih]

theorem flatMap_dmodify_decomp {κ β γ : Type} [DecidableEq κ] (g : κ × β → List γ)
    (m : List (κ × β)) (k : κ) (f : β → β) (v : β)
    (hl : dlookup m k = some v) (hnd : (dkeys m).Nodup) :
    ∃ A B : List γ, m.flatMap g = A ++ (g (k, v) ++ B) ∧
      (dmodify m k f).flatMap g = A ++ (g (k, f v) ++ B) := by
  induction m with
  | nil => simp [dlookup] at hl
  | cons hd tl ih =>
      obtain ⟨k', v'⟩ := hd
      simp only [dkeys, List.map_cons, List.nodup_cons] at hnd
      by_cases hk : k' = k
      · subst hk
        have hv : v' = v := by simpa [dlookup] using hl
        subst hv
        refine ⟨[], tl.flatMap g, by simp, ?_⟩
        unfold dmodify
        rw [if_pos rfl, dmodify_of_not_mem f (by simpa [dkeys] using hnd.1)]
        simp
      · simp only [dlookup, if_neg hk] at hl
        obtain ⟨A, B, h1, h2⟩ := ih hl hnd.2
        refine ⟨g (k', v') ++ A, B, ?_, ?_⟩
        · simp [h1]
        · simp [dmodify, if_neg hk, h2]

/-! ### Pool-level lemmas -/

theorem poolGet_remove (pools : List (String × List String)) (p r : String) :
    poolGet (pools.map (fun rl => (rl.1, rl.2.erase p))) r = (poolGet pools r).erase p := by
  unfold poolGet
  rw [dlookup_map_values pools (fun l => List.erase l p) r]
  cases dlookup pools r <;> simp

theorem poolGet_pool_append (pools : List (String × List String)) (rn pname r : String) :
    poolGet (pool_append pools rn pname) r
      = if r = rn then poolGet pools r ++ [pname] else poolGet pools r := by
  unfold pool_append poolGet
  by_cases hs : (dlookup pools rn).isSome
  · rw [if_pos hs]
    by_cases hr : r = rn
    · subst hr
      rw [dlookup_dmodify_self]
      obtain ⟨l, hl⟩ := Option.isSome_iff_exists.mp hs
      simp [hl]
    · rw [dlookup_dmodify_ne _ _ _ _ (fun he => hr he.symm)]
      simp [hr]
  · rw [if_neg hs, dlookup_append]
    rw [Option.not_isSome_iff_eq_none] at hs
    by_cases hr : r = rn
    · subst hr
      simp [hs, dlookup]
    · have hne : ¬ (rn = r) := fun he => hr he.symm
      simp only [dlookup, if_neg hne, if_neg hr]
      cases dlookup pools r <;> simp

theorem dkeys_pool_append (pools : List (String × List String)) (rn pname : String) :
    dkeys (pool_append pools rn pname) = dkeys pools ∨
    (dkeys (pool_append pools rn pname) = dkeys pools ++ [rn] ∧ rn ∉ dkeys pools) := by
  unfold pool_append
  by_cases hs : (dlookup pools rn).isSome
  · left
    rw [if_pos hs, dkeys_dmodify]
  · right
    rw [if_neg hs]
    refine ⟨by simp [dkeys], ?_⟩
    rw [← dlookup_isSome_iff_mem_dkeys]
    simpa using hs

theorem dkeys_pool_append_nodup {pools : List (String × List String)} {rn pname : String}
    (h : (dkeys pools).Nodup) : (dkeys (pool_append pools rn pname)).Nodup := by
  rcases dkeys_pool_append pools rn pname with he | ⟨he, hmem⟩
  · rw [he]; exact h
  · rw [he]
    simpa [List.nodup_append] using ⟨h, hmem⟩

theorem poolGet_restore (pname : String) (roles : List (String × ℤ)) :
    ∀ (pools : List (String × List String)) (r : String),
    (roles.map Prod.fst).Nodup →
    poolGet (roles.foldl (fun pl rp => pool_append pl rp.1 pname) pools) r
      = if r ∈ roles.map Prod.fst then poolGet pools r ++ [pname] else poolGet pools r := by
  induction roles with
  | nil => intro pools r _; simp
  | cons rp rest ih =>
      intro pools r hnd
      simp only [List.map_cons, List.nodup_cons] at hnd
      rw [List.foldl_cons, ih _ _ hnd.2, poolGet_pool_append]
      by_cases h1 : r ∈ rest.map Prod.fst
      · have hne : ¬ (r = rp.1) := fun he => hnd.1 (he ▸ h1)
        simp [h1, hne]
      · by_cases h2 : r = rp.1
        · subst h2
          simp [h1]
        · simp [h1, h2]

theorem dkeys_restore_nodup (pname : String) (roles : List (String × ℤ)) :
    ∀ (pools : List (String × List String)), (dkeys pools).Nodup →
    (dkeys (roles.foldl (fun pl rp => pool_append pl rp.1 pname) pools)).Nodup := by
  induction roles with
  | nil => intro pools h; exact h
  | cons rp rest ih =>
      intro pools h
      rw [List.foldl_cons]
      exact ih _ (dkeys_pool_append_nodup h)

theorem dkeys_map_values {κ β γ : Type} (m : List (κ × β)) (f : κ × β → γ) :
    dkeys (m.map (fun kv => (kv.1, f kv))) = dkeys m := by
  induction m with
  | nil => rfl
  | cons hd tl ih => simp [dkeys] at ih ⊢

/-! ### Consequences of the invariant -/

theorem mem_poolOf_iff_of_inv (st : DraftState) (hinv : Inv st) (r p : String) :
    p ∈ poolOf st r ↔ (r ∈ roleNamesOf st p ∧ p ∉ rosterNames st) := by
  constructor
  · intro hp
    unfold poolOf at hp
    cases hl : dlookup st.players_by_role r with
    | none => rw [hl] at hp; simp at hp
    | some l =>
        rw [hl] at hp
        simp only [Option.getD_some] at hp
        exact hinv.pool_sub (r, l) (dlookup_some_mem hl) p hp
  · rintro ⟨hrole, hros⟩
    cases hl : dlookup st.all_players p with
    | none =>
        exfalso
        unfold roleNamesOf recOf at hrole
        rw [hl] at hrole
        simp [defaultInfo] at hrole
    | some info =>
        have hrole' : ∃ prio, (r, prio) ∈ info.roles := by
          unfold roleNamesOf recOf at hrole
          rw [hl] at hrole
          simpa using hrole
        obtain ⟨prio, hrp⟩ := hrole'
        exact hinv.pool_complete (p, info) (dlookup_some_mem hl) hros (r, prio) hrp

theorem poolOf_nodup_of_inv (st : DraftState) (hinv : Inv st) (r : String) :
    (poolOf st r).Nodup := by
  unfold poolOf
  cases hl : dlookup st.players_by_role r with
  | none => simp
  | some l =>
      simp only [Option.getD_some]
      exact hinv.pools_nodup (r, l) (dlookup_some_mem hl)

theorem roleNames_known (st : DraftState) {p r : String}
    (hr : r ∈ roleNamesOf st p) : (dlookup st.all_players p).isSome = true := by
  cases hl : dlookup st.all_players p with
  | none =>
      exfalso
      unfold roleNamesOf recOf at hr
      rw [hl] at hr
      simp [defaultInfo] at hr
  | some info => rfl

theorem mem_roster_of_team (st : DraftState) {tid : String} {td : TeamData}
    {q rr : String} (hl : dlookup st.teams tid = some td)
    (hmem : (q, rr) ∈ td.players) : q ∈ rosterNames st := by
  unfold rosterNames
  exact List.mem_flatMap.mpr ⟨(tid, td), dlookup_some_mem hl,
    List.mem_map.mpr ⟨(q, rr), hmem, rfl⟩⟩

theorem hist_player_mem_roster (st : DraftState) (hinv : Inv st) {e : DraftEvent}
    (he : e ∈ st.draft_history) : e.player_name ∈ rosterNames st := by
  have h1 := hinv.hist_team e he
  obtain ⟨td, htd⟩ := Option.isSome_iff_exists.mp h1
  have h2 := hinv.hist_mem e he
  rw [htd] at h2
  simp only [Option.getD_some] at h2
  exact mem_roster_of_team st htd h2

/-! ### Pick preserves the invariant -/

theorem pick_eq (st : DraftState) (tid role : String) (pos : ℚ)
    (segs : List (String × ℚ × ℚ)) (p : String)
    (hres : resolveSegments pos segs = some p) :
    pick_player_from_position st tid role pos segs =
      (some p,
       { players_by_role := st.players_by_role.map (fun rl => (rl.1, rl.2.erase p))
       , all_players := st.all_players
       , teams := dmodify st.teams tid (fun td =>
           ⟨td.players ++ [(p, role)], avgOf st.all_players (td.players ++ [(p, role)])⟩)
       , draft_history := st.draft_history ++ [⟨tid, p, role⟩] }) := by
  unfold pick_player_from_position
  rw [hres]
  rfl

theorem pick_preserves_inv (st : DraftState) (tid role : String) (pos : ℚ)
    (segs : List (String × ℚ × ℚ)) (p r₀ : String)
    (hinv : Inv st)
    (htid : (dlookup st.teams tid).isSome = true)
    (hres : resolveSegments pos segs = some p)
    (hr₀ : p ∈ poolOf st r₀) :
    Inv (pick_player_from_position st tid role pos segs).2 ∧
    (pick_player_from_position st tid role pos segs).1 = some p ∧
    (∀ r, p ∉ poolOf (pick_player_from_position st tid role pos segs).2 r) ∧
    p ∈ rosterNames (pick_player_from_position st tid role pos segs).2 := by
  obtain ⟨td, htd⟩ := Option.isSome_iff_exists.mp htid
  obtain ⟨hprole, hpro⟩ := (mem_poolOf_iff_of_inv st hinv r₀ p).mp hr₀
  have hknown : (dlookup st.all_players p).isSome = true := roleNames_known st hprole
  rw [pick_eq st tid role pos segs p hres]
  set F : TeamData → TeamData := fun td =>
    ⟨td.players ++ [(p, role)], avgOf st.all_players (td.players ++ [(p, role)])⟩ with hF
  set st' : DraftState :=
    { players_by_role := st.players_by_role.map (fun rl => (rl.1, rl.2.erase p))
    , all_players := st.all_players
    , teams := dmodify st.teams tid F
    , draft_history := st.draft_history ++ [⟨tid, p, role⟩] } with hst'
  obtain ⟨A, B, hAB1, hAB2⟩ := flatMap_dmodify_decomp
    (fun kv => kv.2.players.map Prod.fst) st.teams tid F td htd hinv.team_keys_nodup
  have hFtd : (F td).players = td.players ++ [(p, role)] := rfl
  have hroster : rosterNames st = A ++ (td.players.map Prod.fst ++ B) := hAB1
  have hroster' : rosterNames st' = A ++ ((td.players.map Prod.fst ++ [p]) ++ B) := by
    show (dmodify st.teams tid F).flatMap (fun kv => kv.2.players.map Prod.fst)
      = A ++ ((td.players.map Prod.fst ++ [p]) ++ B)
    rw [hAB2]
    simp [hFtd]
  have hmem' : ∀ q, q ∈ rosterNames st' ↔ q ∈ rosterNames st ∨ q = p := by
    intro q
    rw [hroster, hroster']
    simp only [List.mem_append, List.mem_singleton]
    tauto
  have hpool' : ∀ r, poolOf st' r = (poolOf st r).erase p := by
    intro r
    show poolGet (st.players_by_role.map (fun rl => (rl.1, rl.2.erase p))) r
      = (poolGet st.players_by_role r).erase p
    exact poolGet_remove st.players_by_role p r
  have hrec' : ∀ q, recOf st' q = recOf st q := fun _ => rfl
  have hrn' : ∀ q, roleNamesOf st' q = roleNamesOf st q := fun _ => rfl
  have hroster_nodup' : (rosterNames st').Nodup := by
    rw [hroster']
    have h0 : (rosterNames st).Nodup := hinv.roster_nodup
    rw [hroster] at h0 hpro
    have heq : A ++ (td.players.map Prod.fst ++ [p] ++ B)
        = (A ++ td.players.map Prod.fst) ++ p :: B := by simp
    have hperm : ((A ++ td.players.map Prod.fst) ++ p :: B).Perm
        (p :: ((A ++ td.players.map Prod.fst) ++ B)) := List.perm_middle
    rw [show A ++ (td.players.map Prod.fst ++ [p] ++ B)
        = (A ++ td.players.map Prod.fst) ++ p :: B from by simp]
    rw [hperm.nodup_iff, List.nodup_cons]
    constructor
    · intro hc
      apply hpro
      simp only [List.mem_append] at hc ⊢
      tauto
    · rw [show (A ++ td.players.map Prod.fst) ++ B
          = A ++ (td.players.map Prod.fst ++ B) from by simp]
      exact h0
  refine ⟨?_, rfl, ?_, ?_⟩
  · constructor
    case roster_nodup => exact hroster_nodup'
    case pools_nodup =>
        intro rl hrl
        obtain ⟨rl₀, hrl₀, rfl⟩ := List.mem_map.mp hrl
        exact (hinv.pools_nodup rl₀ hrl₀).erase p
    case pool_sub =>
        intro rl hrl q hq
        obtain ⟨rl₀, hrl₀, rfl⟩ := List.mem_map.mp hrl
        simp only at hq
        have hnd₀ := hinv.pools_nodup rl₀ hrl₀
        have hq₀ : q ∈ rl₀.2 := List.mem_of_mem_erase hq
        have hqp : q ≠ p := by
          intro he
          subst he
          exact (hnd₀.not_mem_erase) hq
        obtain ⟨h1, h2⟩ := hinv.pool_sub rl₀ hrl₀ q hq₀
        refine ⟨h1, ?_⟩
        rw [hmem' q]
        rintro (hc | hc)
        · exact h2 hc
        · exact hqp hc
    case pool_complete =>
        intro pi hpi hq rp hrp
        have hqp : pi.1 ≠ p := by
          intro he
          apply hq
          rw [hmem' pi.1, he]
          right
          rfl
        have hq₀ : pi.1 ∉ rosterNames st := by
          intro hc
          apply hq
          rw [hmem' pi.1]
          left
          exact hc
        have := hinv.pool_complete pi hpi hq₀ rp hrp
        rw [hpool']
        exact List.mem_erase_of_ne hqp |>.mpr this
    case roster_known =>
        intro q hq
        rw [hmem' q] at hq
        rcases hq with hq | hq
        · exact hinv.roster_known q hq
        · subst hq
          exact hknown
    case hist_team =>
        intro e he
        rcases List.mem_append.mp he with he | he
        · have := hinv.hist_team e he
          rw [dlookup_isSome_iff_mem_dkeys] at this ⊢
          show e.team_id ∈ dkeys (dmodify st.teams tid F)
          rw [dkeys_dmodify]
          exact this
        · simp only [List.mem_singleton] at he
          subst he
          show (dlookup (dmodify st.teams tid F) tid).isSome = true
          rw [dlookup_dmodify_self, htd]
          rfl
    case hist_mem =>
        intro e he
        rcases List.mem_append.mp he with he | he
        · by_cases hetid : e.team_id = tid
          · have h2 := hinv.hist_mem e he
            rw [hetid] at h2 ⊢
            show (e.player_name, e.role) ∈
              ((dlookup (dmodify st.teams tid F) tid).getD ⟨[], 0⟩).players
            rw [dlookup_dmodify_self, htd]
            rw [htd] at h2
            simp only [Option.getD_some] at h2
            show (e.player_name, e.role) ∈ (F td).players
            rw [hFtd]
            exact List.mem_append_left _ h2
          · have h2 := hinv.hist_mem e he
            show (e.player_name, e.role) ∈
              ((dlookup (dmodify st.teams tid F) e.team_id).getD ⟨[], 0⟩).players
            rw [dlookup_dmodify_ne _ _ _ _ (fun hc => hetid hc.symm)]
            exact h2
        · simp only [List.mem_singleton] at he
          subst he
          show (p, role) ∈ ((dlookup (dmodify st.teams tid F) tid).getD ⟨[], 0⟩).players
          rw [dlookup_dmodify_self, htd]
          simp [hFtd]
    case hist_nodup =>
        simp only [List.map_append]
        rw [List.nodup_append]
        refine ⟨hinv.hist_nodup, by simp, ?_⟩
        intro q hq hq'
        simp only [List.map_cons, List.map_nil, List.mem_singleton] at hq'
        subst hq'
        obtain ⟨e, he, hqe⟩ := List.mem_map.mp hq
        apply hpro
        rw [← hqe]
        exact hist_player_mem_roster st hinv he
    case roles_nodup => exact hinv.roles_nodup
    case pool_keys_nodup =>
        show (dkeys (st.players_by_role.map (fun rl => (rl.1, rl.2.erase p)))).Nodup
        rw [dkeys_map_values st.players_by_role (fun rl => rl.2.erase p)]
        exact hinv.pool_keys_nodup
    case team_keys_nodup =>
        show (dkeys (dmodify st.teams tid F)).Nodup
        rw [dkeys_dmodify]
        exact hinv.team_keys_nodup
    case player_keys_nodup => exact hinv.player_keys_nodup
  · intro r
    rw [hpool' r]
    exact (poolOf_nodup_of_inv st hinv r).not_mem_erase
  · rw [hmem' p]
    right
    rfl

/-! ### Captain-add preserves the invariant (for unknown names) -/

theorem register_team_fields (st : DraftState) (tid : String) :
    rosterNames (register_team st tid) = rosterNames st ∧
    (register_team st tid).players_by_role = st.players_by_role ∧
    (register_team st tid).all_players = st.all_players ∧
    (register_team st tid).draft_history = st.draft_history ∧
    (dlookup (register_team st tid).teams tid).isSome = true := by
  unfold register_team
  by_cases hs : (dlookup st.teams tid).isSome
  · simp [hs]
  · rw [if_neg hs]
    refine ⟨?_, rfl, rfl, rfl, ?_⟩
    · unfold rosterNames
      simp
    · simp only
      rw [dlookup_append]
      rw [Option.not_isSome_iff_eq_none] at hs
      simp [hs, dlookup]

theorem register_team_lookup (st : DraftState) (tid k : String) :
    dlookup (register_team st tid).teams k = dlookup st.teams k ∨
    (dlookup st.teams k = none ∧
      dlookup (register_team st tid).teams k = some ⟨[], 0⟩ ∧ k = tid) := by
  unfold register_team
  by_cases hs : (dlookup st.teams tid).isSome
  · left; rw [if_pos hs]
  · rw [if_neg hs]
    by_cases hk : k = tid
    · subst hk
      right
      rw [Option.not_isSome_iff_eq_none] at hs
      refine ⟨hs, ?_, rfl⟩
      simp only
      rw [dlookup_append, hs]
      simp [dlookup]
    · left
      simp only
      rw [dlookup_append]
      have hne : ¬ (tid = k) := fun he => hk he.symm
      have : dlookup [(tid, (⟨[], 0⟩ : TeamData))] k = none := by
        simp [dlookup, hne]
      rw [this]
      cases dlookup st.teams k <;> rfl

theorem register_team_keys_nodup (st : DraftState) (tid : String)
    (h : (dkeys st.teams).Nodup) : (dkeys (register_team st tid).teams).Nodup := by
  unfold register_team
  by_cases hs : (dlookup st.teams tid).isSome
  · rw [if_pos hs]; exact h
  · rw [if_neg hs]
    simp only [dkeys, List.map_append]
    rw [List.nodup_append]
    refine ⟨h, by simp, ?_⟩
    intro k hk hk'
    simp at hk'
    subst hk'
    have hs' : ¬ k ∈ dkeys st.teams := by
      rw [← dlookup_isSome_iff_mem_dkeys]
      simpa using hs
    exact hs' hk

theorem dlookup_concat_ne {κ β : Type} [DecidableEq κ] (m : List (κ × β)) (k k' : κ)
    (v : β) (h : ¬ (k = k')) : dlookup (m ++ [(k, v)]) k' = dlookup m k' := by
  rw [dlookup_append]
  have : dlookup [(k, v)] k' = none := by simp [dlookup, h]
  rw [this]
  cases dlookup m k' <;> rfl

theorem dlookup_concat_isSome {κ β : Type} [DecidableEq κ] {m : List (κ × β)} {k' : κ}
    (k : κ) (v : β) (h : (dlookup m k').isSome = true) :
    dlookup (m ++ [(k, v)]) k' = dlookup m k' := by
  rw [dlookup_append]
  obtain ⟨w, hw⟩ := Option.isSome_iff_exists.mp h
  rw [hw]
  rfl

theorem captain_add_preserves_inv (st : DraftState) (tid name : String) (mmr : ℤ)
    (hinv : Inv st) (hunk : dlookup st.all_players name = none) :
    Inv (add_captain_to_team st tid name mmr) ∧
    (∀ r, name ∉ poolOf (add_captain_to_team st tid name mmr) r) ∧
    name ∈ rosterNames (add_captain_to_team st tid name mmr) := by
  have hnro : name ∉ rosterNames st := by
    intro hc
    have := hinv.roster_known name hc
    rw [hunk] at this
    cases this
  have hnpool : ∀ r, name ∉ poolOf st r := by
    intro r hc
    obtain ⟨hrole, _⟩ := (mem_poolOf_iff_of_inv st hinv r name).mp hc
    have := roleNames_known st hrole
    rw [hunk] at this
    cases this
  obtain ⟨hros, hpools, hall, hhist, hsome⟩ := register_team_fields st tid
  obtain ⟨td, htd⟩ := Option.isSome_iff_exists.mp hsome
  set cap := add_captain_to_team st tid name mmr with hcap
  set G : TeamData → TeamData := fun td =>
    ⟨td.players ++ [(name, "(Captain)")],
     if (td.players ++ [(name, "(Captain)")]).length > 0 then
       avgOf (st.all_players ++ [(name, ⟨mmr, []⟩)]) (td.players ++ [(name, "(Captain)")])
     else 0⟩ with hG
  have hcap_pools : cap.players_by_role = st.players_by_role := by
    rw [hcap]
    unfold add_captain_to_team register_team
    by_cases hr : (dlookup st.teams tid).isSome <;> simp [hr, hunk]
  have hcap_all : cap.all_players = st.all_players ++ [(name, ⟨mmr, []⟩)] := by
    rw [hcap]
    unfold add_captain_to_team register_team
    by_cases hr : (dlookup st.teams tid).isSome <;> simp [hr, hunk]
  have hcap_hist : cap.draft_history
      = st.draft_history ++ [⟨tid, name, "(Captain)"⟩] := by
    rw [hcap]
    unfold add_captain_to_team register_team
    by_cases hr : (dlookup st.teams tid).isSome <;> simp [hr, hunk]
  have hcap_teams : cap.teams = dmodify (register_team st tid).teams tid G := by
    rw [hcap, hG]
    unfold add_captain_to_team register_team
    by_cases hr : (dlookup st.teams tid).isSome <;> simp [hr, hunk]
  obtain ⟨A, B, hAB1, hAB2⟩ := flatMap_dmodify_decomp
    (fun kv => kv.2.players.map Prod.fst) (register_team st tid).teams tid G td htd
    (register_team_keys_nodup st tid hinv.team_keys_nodup)
  have hGtd : (G td).players = td.players ++ [(name, "(Captain)")] := rfl
  have hroster : rosterNames st = A ++ (td.players.map Prod.fst ++ B) := by
    rw [← hros]
    exact hAB1
  have hroster' : rosterNames cap = A ++ (td.players.map Prod.fst ++ [name] ++ B) := by
    show cap.teams.flatMap (fun kv => kv.2.players.map Prod.fst) = _
    rw [hcap_teams, hAB2]
    simp [hGtd]
  have hmem' : ∀ q, q ∈ rosterNames cap ↔ q ∈ rosterNames st ∨ q = name := by
    intro q
    rw [hroster, hroster']
    simp only [List.mem_append, List.mem_singleton]
    tauto
  have hpool' : ∀ r, poolOf cap r = poolOf st r := by
    intro r
    show poolGet cap.players_by_role r = poolGet st.players_by_role r
    rw [hcap_pools]
  have hrec_ne : ∀ q, q ≠ name → dlookup cap.all_players q = dlookup st.all_players q := by
    intro q hq
    rw [hcap_all]
    exact dlookup_concat_ne st.all_players name q ⟨mmr, []⟩ (fun he => hq he.symm)
  have hrec_name : dlookup cap.all_players name = some ⟨mmr, []⟩ := by
    rw [hcap_all, dlookup_append, hunk]
    simp [dlookup]
  have hrn_ne : ∀ q, q ≠ name → roleNamesOf cap q = roleNamesOf st q := by
    intro q hq
    unfold roleNamesOf recOf
    rw [hrec_ne q hq]
  have hroster_nodup' : (rosterNames cap).Nodup := by
    rw [hroster']
    have h0 : (rosterNames st).Nodup := hinv.roster_nodup
    rw [hroster] at h0 hnro
    have hperm : ((A ++ td.players.map Prod.fst) ++ name :: B).Perm
        (name :: ((A ++ td.players.map Prod.fst) ++ B)) := List.perm_middle
    rw [show A ++ (td.players.map Prod.fst ++ [name] ++ B)
        = (A ++ td.players.map Prod.fst) ++ name :: B from by simp]
    rw [hperm.nodup_iff, List.nodup_cons]
    constructor
    · intro hc
      apply hnro
      simp only [List.mem_append] at hc ⊢
      tauto
    · rw [show (A ++ td.players.map Prod.fst) ++ B
          = A ++ (td.players.map Prod.fst ++ B) from by simp]
      exact h0
  refine ⟨?_, ?_, ?_⟩
  · constructor
    case roster_nodup => exact hroster_nodup'
    case pools_nodup =>
        intro rl hrl
        rw [hcap_pools] at hrl
        exact hinv.pools_nodup rl hrl
    case pool_sub =>
        intro rl hrl q hq
        rw [hcap_pools] at hrl
        obtain ⟨h1, h2⟩ := hinv.pool_sub rl hrl q hq
        have hqname : q ≠ name := by
          intro he
          subst he
          apply hnpool rl.1
          unfold poolOf
          rw [dlookup_eq_some_of_mem_nodup hinv.pool_keys_nodup
            (show (rl.1, rl.2) ∈ st.players_by_role from hrl)]
          exact hq
        rw [hrn_ne q hqname]
        refine ⟨h1, ?_⟩
        rw [hmem' q]
        rintro (hc | hc)
        · exact h2 hc
        · exact hqname hc
    case pool_complete =>
        intro pi hpi hq rp hrp
        rw [hcap_all] at hpi
        rcases List.mem_append.mp hpi with hpi | hpi
        · have hq₀ : pi.1 ∉ rosterNames st := by
            intro hc
            apply hq
            rw [hmem' pi.1]
            left
            exact hc
          rw [hpool']
          exact hinv.pool_complete pi hpi hq₀ rp hrp
        · simp only [List.mem_singleton] at hpi
          subst hpi
          simp at hrp
    case roster_known =>
        intro q hq
        rw [hmem' q] at hq
        rcases hq with hq | hq
        · have := hinv.roster_known q hq
          rw [hcap_all]
          rw [dlookup_concat_isSome name ⟨mmr, []⟩ this]
          exact this
        · subst hq
          rw [hrec_name]
          rfl
    case hist_team =>
        intro e he
        rw [hcap_hist] at he
        rcases List.mem_append.mp he with he | he
        · have h1 := hinv.hist_team e he
          rw [hcap_teams, dlookup_isSome_iff_mem_dkeys, dkeys_dmodify,
            ← dlookup_isSome_iff_mem_dkeys]
          rcases register_team_lookup st tid e.team_id with hc | ⟨hc, _, _⟩
          · rw [hc]; exact h1
          · rw [hc] at h1; cases h1
        · simp only [List.mem_singleton] at he
          subst he
          rw [hcap_teams]
          show (dlookup (dmodify (register_team st tid).teams tid G) tid).isSome = true
          rw [dlookup_dmodify_self, htd]
          rfl
    case hist_mem =>
        intro e he
        rw [hcap_hist] at he
        rcases List.mem_append.mp he with he | he
        · have h1 := hinv.hist_team e he
          have h2 := hinv.hist_mem e he
          rw [hcap_teams]
          have hlrt : dlookup (register_team st tid).teams e.team_id
              = dlookup st.teams e.team_id := by
            rcases register_team_lookup st tid e.team_id with hc | ⟨hc, _, _⟩
            · exact hc
            · rw [hc] at h1; cases h1
          by_cases hetid : e.team_id = tid
          · rw [hetid] at h1 h2 hlrt ⊢
            show (e.player_name, e.role) ∈
              ((dlookup (dmodify (register_team st tid).teams tid G) tid).getD
                ⟨[], 0⟩).players
            rw [dlookup_dmodify_self, htd]
            have htd' : dlookup st.teams tid = some td := by rw [← hlrt]; exact htd
            rw [htd'] at h2
            simp only [Option.getD_some] at h2
            show (e.player_name, e.role) ∈ (G td).players
            rw [hGtd]
            exact List.mem_append_left _ h2
          · show (e.player_name, e.role) ∈
              ((dlookup (dmodify (register_team st tid).teams tid G) e.team_id).getD
                ⟨[], 0⟩).players
            rw [dlookup_dmodify_ne _ _ _ _ (fun hc => hetid hc.symm), hlrt]
            exact h2
        · simp only [List.mem_singleton] at he
          subst he
          rw [hcap_teams]
          show (name, "(Captain)") ∈
            ((dlookup (dmodify (register_team st tid).teams tid G) tid).getD
              ⟨[], 0⟩).players
          rw [dlookup_dmodify_self, htd]
          show (name, "(Captain)") ∈ (G td).players
          rw [hGtd]
          simp
    case hist_nodup =>
        rw [hcap_hist]
        simp only [List.map_append]
        rw [List.nodup_append]
        refine ⟨hinv.hist_nodup, by simp, ?_⟩
        intro q hq hq'
        simp only [List.map_cons, List.map_nil, List.mem_singleton] at hq'
        subst hq'
        obtain ⟨e, he, hqe⟩ := List.mem_map.mp hq
        apply hnro
        rw [← hqe]
        exact hist_player_mem_roster st hinv he
    case roles_nodup =>
        intro pi hpi
        rw [hcap_all] at hpi
        rcases List.mem_append.mp hpi with hpi | hpi
        · exact hinv.roles_nodup pi hpi
        · simp only [List.mem_singleton] at hpi
          subst hpi
          simp
    case pool_keys_nodup =>
        show (dkeys cap.players_by_role).Nodup
        rw [hcap_pools]
        exact hinv.pool_keys_nodup
    case team_keys_nodup =>
        show (dkeys cap.teams).Nodup
        rw [hcap_teams, dkeys_dmodify]
        exact register_team_keys_nodup st tid hinv.team_keys_nodup
    case player_keys_nodup =>
        show (dkeys cap.all_players).Nodup
        rw [hcap_all]
        simp only [dkeys, List.map_append]
        rw [List.nodup_append]
        refine ⟨hinv.player_keys_nodup, by simp, ?_⟩
        intro q hq hq'
        simp at hq'
        subst hq'
        rw [dlookup_eq_none_iff_not_mem] at hunk
        exact hunk hq
  · intro r
    rw [hpool' r]
    exact hnpool r
  · rw [hmem' name]
    right
    rfl

/-! ### Undo preserves the invariant -/

theorem perm_cons_erase_beq {α : Type} [BEq α] [LawfulBEq α] {a : α} {l : List α}
    (h : a ∈ l) : l.Perm (a :: l.erase a) := by
  induction l with
  | nil => cases h
  | cons b t ih =>
      by_cases hba : b = a
      · subst hba
        rw [List.erase_cons_head]
      · have hmem : a ∈ t := by
          rcases List.mem_cons.mp h with hc | hc
          · exact absurd hc.symm hba
          · exact hc
        have ht : (b :: t).erase a = b :: t.erase a := by
          rw [List.erase_cons_tail]
          simp [hba]
        rw [ht]
        exact (List.Perm.cons b (ih hmem)).trans (List.Perm.swap a b _)

theorem undo_eq (st : DraftState) (e : DraftEvent)
    (h : st.draft_history.getLast? = some e) :
    undo_last_pick st =
      (some e.player_name,
       { players_by_role := (recOf st e.player_name).roles.foldl
           (fun pl rp => pool_append pl rp.1 e.player_name) st.players_by_role
       , all_players := st.all_players
       , teams := dmodify st.teams e.team_id (fun td =>
           ⟨td.players.erase (e.player_name, e.role),
            if td.players.erase (e.player_name, e.role) = [] then 0
            else avgOf st.all_players (td.players.erase (e.player_name, e.role))⟩)
       , draft_history := st.draft_history.dropLast }) := by
  unfold undo_last_pick
  rw [h]

theorem undo_preserves_inv (st : DraftState) (hinv : Inv st) :
    Inv (undo_last_pick st).2 := by
  rcases List.eq_nil_or_concat st.draft_history with hnil | ⟨l', e, hsplit⟩
  · unfold undo_last_pick
    rw [hnil]
    exact hinv
  · rw [List.concat_eq_append] at hsplit
    have hlast : st.draft_history.getLast? = some e := by
      rw [hsplit]
      exact List.getLast?_concat l'
    have hdrop : st.draft_history.dropLast = l' := by
      rw [hsplit]
      exact List.dropLast_concat ..
    have hehist : e ∈ st.draft_history := by
      rw [hsplit]
      simp
    set pname := e.player_name with hpname
    set role := e.role with hrole
    obtain ⟨td, htd⟩ := Option.isSome_iff_exists.mp (hinv.hist_team e hehist)
    have hmem_td : (pname, role) ∈ td.players := by
      have h2 := hinv.hist_mem e hehist
      rw [htd] at h2
      simpa using h2
    have hproster : pname ∈ rosterNames st := mem_roster_of_team st htd hmem_td
    obtain ⟨info, hinfo⟩ := Option.isSome_iff_exists.mp (hinv.roster_known pname hproster)
    have hrecinfo : recOf st pname = info := by unfold recOf; rw [hinfo]; rfl
    have hrolesnd : (info.roles.map Prod.fst).Nodup :=
      hinv.roles_nodup (pname, info) (dlookup_some_mem hinfo)
    have hnpool : ∀ r, pname ∉ poolOf st r := by
      intro r hc
      exact ((mem_poolOf_iff_of_inv st hinv r pname).mp hc).2 hproster
    rw [undo_eq st e hlast]
    set H : TeamData → TeamData := fun td =>
      ⟨td.players.erase (pname, role),
       if td.players.erase (pname, role) = [] then 0
       else avgOf st.all_players (td.players.erase (pname, role))⟩ with hH
    obtain ⟨A, B, hAB1, hAB2⟩ := flatMap_dmodify_decomp
      (fun kv => kv.2.players.map Prod.fst) st.teams e.team_id H td htd
      hinv.team_keys_nodup
    have hroster : rosterNames st = A ++ (td.players.map Prod.fst ++ B) := hAB1
    set st' : DraftState :=
      { players_by_role := (recOf st pname).roles.foldl
          (fun pl rp => pool_append pl rp.1 pname) st.players_by_role
      , all_players := st.all_players
      , teams := dmodify st.teams e.team_id H
      , draft_history := st.draft_history.dropLast } with hst'
    have hroster' : rosterNames st'
        = A ++ ((td.players.erase (pname, role)).map Prod.fst ++ B) := by
      show (dmodify st.teams e.team_id H).flatMap (fun kv => kv.2.players.map Prod.fst) = _
      rw [hAB2]
    have hpermN : (td.players.map Prod.fst).Perm
        (pname :: (td.players.erase (pname, role)).map Prod.fst) := by
      have := (perm_cons_erase_beq hmem_td).map Prod.fst
      simpa using this
    have hperm : (rosterNames st).Perm (pname :: rosterNames st') := by
      rw [hroster, hroster']
      have h1 : (A ++ (td.players.map Prod.fst ++ B)).Perm
          (A ++ ((pname :: (td.players.erase (pname, role)).map Prod.fst) ++ B)) :=
        List.Perm.append_left A (List.Perm.append_right B hpermN)
      refine h1.trans ?_
      rw [show A ++ ((pname :: (td.players.erase (pname, role)).map Prod.fst) ++ B)
          = A ++ pname :: ((td.players.erase (pname, role)).map Prod.fst ++ B) from by simp]
      exact List.perm_middle
    have hnodup' : (pname :: rosterNames st').Nodup := hperm.nodup_iff.mp hinv.roster_nodup
    have hroster_nodup' : (rosterNames st').Nodup := (List.nodup_cons.mp hnodup').2
    have hpnro' : pname ∉ rosterNames st' := (List.nodup_cons.mp hnodup').1
    have hmemiff : ∀ q, q ∈ rosterNames st ↔ q = pname ∨ q ∈ rosterNames st' := by
      intro q
      rw [hperm.mem_iff]
      simp
    have hpool' : ∀ r, poolOf st' r
        = if r ∈ roleNamesOf st pname then poolOf st r ++ [pname] else poolOf st r := by
      intro r
      show poolGet ((recOf st pname).roles.foldl
        (fun pl rp => pool_append pl rp.1 pname) st.players_by_role) r = _
      rw [hrecinfo]
      rw [poolGet_restore pname info.roles st.players_by_role r hrolesnd]
      unfold roleNamesOf
      rw [hrecinfo]
      rfl
    constructor
    case roster_nodup => exact hroster_nodup'
    case pools_nodup =>
        intro rl hrl
        have hkeys : (dkeys st'.players_by_role).Nodup := by
          show (dkeys ((recOf st pname).roles.foldl
            (fun pl rp => pool_append pl rp.1 pname) st.players_by_role)).Nodup
          exact dkeys_restore_nodup pname (recOf st pname).roles st.players_by_role
            hinv.pool_keys_nodup
        have hl := dlookup_eq_some_of_mem_nodup hkeys hrl
        have : rl.2 = poolOf st' rl.1 := by
          unfold poolOf
          rw [show dlookup st'.players_by_role rl.1 = some rl.2 from hl]
          rfl
        rw [this, hpool' rl.1]
        by_cases hr : rl.1 ∈ roleNamesOf st pname
        · rw [if_pos hr]
          rw [List.nodup_append]
          exact ⟨poolOf_nodup_of_inv st hinv rl.1, by simp,
            by intro q hq hq'; simp at hq'; subst hq'; exact hnpool rl.1 hq⟩
        · rw [if_neg hr]
          exact poolOf_nodup_of_inv st hinv rl.1
    case pool_sub =>
        intro rl hrl q hq
        have hkeys : (dkeys st'.players_by_role).Nodup := by
          show (dkeys ((recOf st pname).roles.foldl
            (fun pl rp => pool_append pl rp.1 pname) st.players_by_role)).Nodup
          exact dkeys_restore_nodup pname (recOf st pname).roles st.players_by_role
            hinv.pool_keys_nodup
        have hl := dlookup_eq_some_of_mem_nodup hkeys hrl
        have hq' : q ∈ poolOf st' rl.1 := by
          unfold poolOf
          rw [show dlookup st'.players_by_role rl.1 = some rl.2 from hl]
          exact hq
        rw [hpool' rl.1] at hq'
        by_cases hr : rl.1 ∈ roleNamesOf st pname
        · rw [if_pos hr] at hq'
          rcases List.mem_append.mp hq' with hq' | hq'
          · obtain ⟨h1, h2⟩ := (mem_poolOf_iff_of_inv st hinv rl.1 q).mp hq'
            refine ⟨h1, ?_⟩
            intro hc
            exact h2 ((hmemiff q).mpr (Or.inr hc))
          · simp only [List.mem_singleton] at hq'
            subst hq'
            exact ⟨hr, hpnro'⟩
        · rw [if_neg hr] at hq'
          obtain ⟨h1, h2⟩ := (mem_poolOf_iff_of_inv st hinv rl.1 q).mp hq'
          refine ⟨h1, ?_⟩
          intro hc
          exact h2 ((hmemiff q).mpr (Or.inr hc))
    case pool_complete =>
        intro pi hpi hq rp hrp
        by_cases hqn : pi.1 = pname
        · have hinfo' : pi.2 = info := by
            have h5 := dlookup_eq_some_of_mem_nodup hinv.player_keys_nodup
              (show (pi.1, pi.2) ∈ st.all_players from hpi)
            rw [hqn, hinfo] at h5
            have h6 : info = pi.2 := by simpa using h5
            exact h6.symm
          rw [hpool' rp.1, hqn]
          have hr : rp.1 ∈ roleNamesOf st pname := by
            unfold roleNamesOf
            rw [hrecinfo]
            rw [hinfo'] at hrp
            exact List.mem_map_of_mem Prod.fst hrp
          rw [if_pos hr]
          simp
        · have hq₀ : pi.1 ∉ rosterNames st := by
            intro hc
            rcases (hmemiff pi.1).mp hc with hc | hc
            · exact hqn hc
            · exact hq hc
          have := hinv.pool_complete pi hpi hq₀ rp hrp
          rw [hpool' rp.1]
          by_cases hr : rp.1 ∈ roleNamesOf st pname
          · rw [if_pos hr]
            exact List.mem_append_left _ this
          · rw [if_neg hr]
            exact this
    case roster_known =>
        intro q hq
        exact hinv.roster_known q ((hmemiff q).mpr (Or.inr hq))
    case hist_team =>
        intro e' he'
        show (dlookup (dmodify st.teams e.team_id H) e'.team_id).isSome = true
        rw [dlookup_isSome_iff_mem_dkeys, dkeys_dmodify, ← dlookup_isSome_iff_mem_dkeys]
        apply hinv.hist_team e'
        rw [hsplit]
        have he2 : e' ∈ st.draft_history.dropLast := he'
        rw [hdrop] at he2
        exact List.mem_append_left _ he2
    case hist_mem =>
        intro e' he'
        have he2 : e' ∈ st.draft_history.dropLast := he'
        rw [hdrop] at he2
        have he'hist : e' ∈ st.draft_history := by
          rw [hsplit]
          exact List.mem_append_left _ he2
        have h2 := hinv.hist_mem e' he'hist
        by_cases hetid : e'.team_id = e.team_id
        · show (e'.player_name, e'.role) ∈
            ((dlookup (dmodify st.teams e.team_id H) e'.team_id).getD ⟨[], 0⟩).players
          rw [hetid, dlookup_dmodify_self, htd]
          rw [hetid, htd] at h2
          simp only [Option.getD_some] at h2
          show (e'.player_name, e'.role) ∈ (H td).players
          have hne : e'.player_name ≠ pname := by
            have hnd := hinv.hist_nodup
            rw [hsplit, List.map_append, List.nodup_append] at hnd
            intro hc
            exact hnd.2.2 (List.mem_map_of_mem DraftEvent.player_name he2)
              (by simp [hc, hpname])
          show (e'.player_name, e'.role) ∈ td.players.erase (pname, role)
          apply (List.mem_erase_of_ne ?h).mpr h2
          intro hc
          exact hne (congrArg Prod.fst hc)
        · show (e'.player_name, e'.role) ∈
            ((dlookup (dmodify st.teams e.team_id H) e'.team_id).getD ⟨[], 0⟩).players
          rw [dlookup_dmodify_ne _ _ _ _ (fun hc => hetid hc.symm)]
          exact h2
    case hist_nodup =>
        have hnd := hinv.hist_nodup
        rw [hsplit, List.map_append, List.nodup_append] at hnd
        show (st.draft_history.dropLast.map DraftEvent.player_name).Nodup
        rw [hdrop]
        exact hnd.1
    case roles_nodup => exact hinv.roles_nodup
    case pool_keys_nodup =>
        show (dkeys ((recOf st pname).roles.foldl
          (fun pl rp => pool_append pl rp.1 pname) st.players_by_role)).Nodup
        exact dkeys_restore_nodup pname (recOf st pname).roles st.players_by_role
          hinv.pool_keys_nodup
    case team_keys_nodup =>
        show (dkeys (dmodify st.teams e.team_id H)).Nodup
        rw [dkeys_dmodify]
        exact hinv.team_keys_nodup
    case player_keys_nodup => exact hinv.player_keys_nodup

/-! ### Undo is the inverse of pick (up to pool order) -/

theorem dmodify_dmodify {κ β : Type} [DecidableEq κ] (m : List (κ × β)) (k : κ)
    (f g : β → β) : dmodify (dmodify m k f) k g = dmodify m k (fun v => g (f v)) := by
  induction m with
  | nil => rfl
  | cons hd tl ih =>
      obtain ⟨k', v'⟩ := hd
      by_cases hk : k' = k <;> simp [dmodify, hk, ih]

theorem dmodify_eq_self {κ β : Type} [DecidableEq κ] {m : List (κ × β)} {k : κ}
    {f : β → β} (h : ∀ v, (k, v) ∈ m → f v = v) : dmodify m k f = m := by
  induction m with
  | nil => rfl
  | cons hd tl ih =>
      obtain ⟨k', v'⟩ := hd
      by_cases hk : k' = k
      · subst hk
        rw [show dmodify ((k', v') :: tl) k' f = (k', f v') :: dmodify tl k' f from by
          simp [dmodify]]
        rw [h v' (List.mem_cons_self _ _)]
        rw [ih (fun v hv => h v (List.mem_cons_of_mem _ hv))]
      · rw [show dmodify ((k', v') :: tl) k f = (k', v') :: dmodify tl k f from by
          simp [dmodify, hk]]
        rw [ih (fun v hv => h v (List.mem_cons_of_mem _ hv))]

theorem mem_poolGet_restore (pname : String) (roles : List (String × ℤ)) :
    ∀ (P : List (String × List String)) (r q : String),
    q ∈ poolGet (roles.foldl (fun pl rp => pool_append pl rp.1 pname) P) r
      ↔ (q ∈ poolGet P r ∨ (q = pname ∧ r ∈ roles.map Prod.fst)) := by
  induction roles with
  | nil => simp
  | cons rp rest ih =>
      intro P r q
      rw [List.foldl_cons, ih, poolGet_pool_append]
      by_cases h2 : r = rp.1
      · rw [if_pos h2]
        simp only [List.map_cons, List.mem_cons, List.mem_append, List.mem_singleton,
          List.not_mem_nil, or_false]
        have : r = rp.1 := h2
        tauto
      · rw [if_neg h2]
        simp only [List.map_cons, List.mem_cons]
        have : ¬ (r = rp.1) := h2
        tauto

theorem pick_avgok (st : DraftState) (tid role : String) (pos : ℚ)
    (segs : List (String × ℚ × ℚ)) (p : String)
    (hres : resolveSegments pos segs = some p) (havg : AvgOk st) :
    AvgOk (pick_player_from_position st tid role pos segs).2 := by
  rw [pick_eq st tid role pos segs p hres]
  intro tdp htdp
  simp only at htdp
  rw [dmodify_eq_map] at htdp
  obtain ⟨kv, hkv, heq⟩ := List.mem_map.mp htdp
  by_cases hk : kv.1 = tid
  · rw [if_pos hk] at heq
    rw [← heq]
  · rw [if_neg hk] at heq
    rw [← heq]
    exact havg kv hkv

theorem state_equiv_refl (st : DraftState) : StateEquiv st st :=
  ⟨fun _ _ => Iff.rfl, rfl, rfl, rfl⟩

theorem state_equiv_trans {s1 s2 s3 : DraftState}
    (h1 : StateEquiv s1 s2) (h2 : StateEquiv s2 s3) : StateEquiv s1 s3 :=
  ⟨fun r p => (h1.1 r p).trans (h2.1 r p), h1.2.1.trans h2.2.1,
   h1.2.2.1.trans h2.2.2.1, h1.2.2.2.trans h2.2.2.2⟩

theorem undo_congr {st st' : DraftState} (h : StateEquiv st st') :
    StateEquiv (undo_last_pick st).2 (undo_last_pick st').2 := by
  obtain ⟨hp, ha, ht, hh⟩ := h
  cases hlast : st.draft_history.getLast? with
  | none =>
      have hlast' : st'.draft_history.getLast? = none := by rw [← hh]; exact hlast
      unfold undo_last_pick
      rw [hlast, hlast']
      unfold StateEquiv
      exact ⟨hp, ha, ht, hh⟩
  | some e =>
      have hlast' : st'.draft_history.getLast? = some e := by rw [← hh]; exact hlast
      rw [undo_eq st e hlast, undo_eq st' e hlast']
      unfold StateEquiv
      refine ⟨?_, by simp [ha], by simp [ht, ha], by simp [hh]⟩
      intro r q
      show q ∈ poolGet ((recOf st e.player_name).roles.foldl
          (fun pl rp => pool_append pl rp.1 e.player_name) st.players_by_role) r
        ↔ q ∈ poolGet ((recOf st' e.player_name).roles.foldl
          (fun pl rp => pool_append pl rp.1 e.player_name) st'.players_by_role) r
      have hrec : recOf st e.player_name = recOf st' e.player_name := by
        unfold recOf
        rw [ha]
      rw [hrec, mem_poolGet_restore, mem_poolGet_restore]
      have := hp r q
      unfold poolOf at this
      rw [show poolGet st.players_by_role r = (dlookup st.players_by_role r).getD [] from rfl,
        show poolGet st'.players_by_role r = (dlookup st'.players_by_role r).getD [] from rfl]
      rw [this]

theorem undo_pick_roundtrip (st : DraftState) (tid role : String) (pos : ℚ)
    (segs : List (String × ℚ × ℚ)) (p r₀ : String)
    (hinv : Inv st) (havg : AvgOk st)
    (_htid : (dlookup st.teams tid).isSome = true)
    (hres : resolveSegments pos segs = some p)
    (hr₀ : p ∈ poolOf st r₀) :
    StateEquiv (undo_last_pick (pick_player_from_position st tid role pos segs).2).2 st := by
  obtain ⟨hprole, hpro⟩ := (mem_poolOf_iff_of_inv st hinv r₀ p).mp hr₀
  obtain ⟨info, hinfo⟩ := Option.isSome_iff_exists.mp (roleNames_known st hprole)
  have hrecinfo : recOf st p = info := by unfold recOf; rw [hinfo]; rfl
  have hrolesnd : (info.roles.map Prod.fst).Nodup :=
    hinv.roles_nodup (p, info) (dlookup_some_mem hinfo)
  rw [pick_eq st tid role pos segs p hres]
  set F : TeamData → TeamData := fun td =>
    ⟨td.players ++ [(p, role)], avgOf st.all_players (td.players ++ [(p, role)])⟩ with hF
  set st₃ : DraftState :=
    { players_by_role := st.players_by_role.map (fun rl => (rl.1, rl.2.erase p))
    , all_players := st.all_players
    , teams := dmodify st.teams tid F
    , draft_history := st.draft_history ++ [⟨tid, p, role⟩] } with hst₃
  have hlast : st₃.draft_history.getLast? = some ⟨tid, p, role⟩ := by
    show (st.draft_history ++ [(⟨tid, p, role⟩ : DraftEvent)]).getLast? = _
    exact List.getLast?_concat _
  rw [undo_eq st₃ ⟨tid, p, role⟩ hlast]
  unfold StateEquiv
  refine ⟨?_, rfl, ?_, ?_⟩
  · -- role pools agree up to membership
    intro r q
    show q ∈ poolGet ((recOf st₃ p).roles.foldl
        (fun pl rp => pool_append pl rp.1 p) st₃.players_by_role) r ↔ q ∈ poolOf st r
    have hrec₃ : recOf st₃ p = info := hrecinfo
    rw [hrec₃, mem_poolGet_restore]
    have hpg : poolGet st₃.players_by_role r = (poolOf st r).erase p :=
      poolGet_remove st.players_by_role p r
    rw [hpg]
    have hroleiff : r ∈ info.roles.map Prod.fst ↔ p ∈ poolOf st r := by
      rw [mem_poolOf_iff_of_inv st hinv r p]
      unfold roleNamesOf
      rw [hrecinfo]
      constructor
      · intro hr
        exact ⟨hr, hpro⟩
      · intro hr
        exact hr.1
    constructor
    · rintro (hq | ⟨hq1, hq2⟩)
      · exact List.mem_of_mem_erase hq
      · subst hq1
        exact hroleiff.mp hq2
    · intro hq
      by_cases hqp : q = p
      · subst hqp
        right
        exact ⟨rfl, hroleiff.mpr hq⟩
      · left
        exact (List.mem_erase_of_ne hqp).mpr hq
  · -- teams are restored exactly
    show dmodify (dmodify st.teams tid F) tid _ = st.teams
    rw [dmodify_dmodify]
    apply dmodify_eq_self
    intro v hv
    have hpr_notmem : (p, role) ∉ v.players := by
      intro hc
      apply hpro
      unfold rosterNames
      exact List.mem_flatMap.mpr ⟨(tid, v), hv, List.mem_map.mpr ⟨(p, role), hc, rfl⟩⟩
    have herase : ((F v).players).erase (p, role) = v.players := by
      rw [hF]
      show ((v.players ++ [(p, role)]).erase (p, role)) = v.players
      rw [List.erase_append_right _ hpr_notmem, List.erase_cons_head]
      simp
    have havgv : v.average_mmr = avgOf st.all_players v.players := havg (tid, v) hv
    show TeamData.mk (((F v).players).erase (p, role))
      (if ((F v).players).erase (p, role) = [] then 0
       else avgOf st₃.all_players (((F v).players).erase (p, role))) = v
    rw [herase]
    by_cases hvnil : v.players = []
    · rw [if_pos hvnil]
      have hz : v.average_mmr = 0 := by
        rw [havgv, hvnil]
        unfold avgOf
        simp
      rw [← hz]
    · rw [if_neg hvnil]
      show TeamData.mk v.players (avgOf st.all_players v.players) = v
      rw [← havgv]
  · -- history is restored exactly
    show (st.draft_history ++ [(⟨tid, p, role⟩ : DraftEvent)]).dropLast = st.draft_history
    exact List.dropLast_concat ..

theorem length_erase_add_one_beq {α : Type} [BEq α] [LawfulBEq α] {a : α} {l : List α}
    (h : a ∈ l) : (l.erase a).length + 1 = l.length := by
  have hlen := (perm_cons_erase_beq h).length_eq
  simp only [List.length_cons] at hlen
  omega

theorem undoIter_succ (st : DraftState) (n : ℕ) :
    undoIter st (n + 1) = (undo_last_pick (undoIter st n)).2 := by
  induction n generalizing st with
  | zero => rfl
  | succ n ih =>
      show undoIter (undo_last_pick st).2 (n + 1) = _
      rw [ih]
      rfl

theorem picks_undo_roundtrip : ∀ (args : List PickArgs) (st : DraftState),
    Inv st → AvgOk st → ValidPicks st args →
    StateEquiv (undoIter (pickIter st args) args.length) st := by
  intro args
  induction args with
  | nil =>
      intro st _ _ _
      exact state_equiv_refl st
  | cons a rest ih =>
      intro st hinv havg hv
      cases hv with
      | cons _ _ _ hok hv' =>
          obtain ⟨htid, p, hres, r₀, hr₀⟩ := hok
          have hinv' := (pick_preserves_inv st a.team_id a.role a.position a.segments
            p r₀ hinv htid hres hr₀).1
          have havg' := pick_avgok st a.team_id a.role a.position a.segments p hres havg
          have hIH := ih (pickStep st a) hinv' havg' hv'
          show StateEquiv (undoIter (pickIter st (a :: rest)) (rest.length + 1)) st
          have hpi : pickIter st (a :: rest) = pickIter (pickStep st a) rest := rfl
          rw [hpi, undoIter_succ]
          have h2 := undo_congr hIH
          have h3 := undo_pick_roundtrip st a.team_id a.role a.position a.segments
            p r₀ hinv havg htid hres hr₀
          exact state_equiv_trans h2 h3

/-- C5 (amended): undo pops the most recent history event (with empty history
it returns `None` and changes nothing), removes exactly one `(player, role)`
entry from that team's roster, recomputes the team's average rating (0 if the
team becomes empty), and restores the player into the role pools for every
role in their role priorities; undoing N valid picks returns the teams, the
history and the record table exactly to their initial values and every role
pool to its initial membership — though not necessarily in its initial order,
since the undone player is re-appended at the end of each pool (see the
counterexample). -/
theorem claim5_undo_lifo (st : DraftState) (hinv : Inv st) (havg : AvgOk st) :
    (st.draft_history = [] → undo_last_pick st = (none, st)) ∧
    (∀ e td, st.draft_history.getLast? = some e →
      dlookup st.teams e.team_id = some td →
      (undo_last_pick st).1 = some e.player_name ∧
      (undo_last_pick st).2.draft_history = st.draft_history.dropLast ∧
      dlookup (undo_last_pick st).2.teams e.team_id
        = some ⟨td.players.erase (e.player_name, e.role),
            if td.players.erase (e.player_name, e.role) = [] then 0
            else avgOf st.all_players (td.players.erase (e.player_name, e.role))⟩ ∧
      (td.players.erase (e.player_name, e.role)).length + 1 = td.players.length ∧
      (∀ r ∈ roleNamesOf st e.player_name,
        e.player_name ∈ poolOf (undo_last_pick st).2 r)) ∧
    (∀ args, ValidPicks st args →
      StateEquiv (undoIter (pickIter st args) args.length) st) := by
  refine ⟨?_, ?_, fun args hv => picks_undo_roundtrip args st hinv havg hv⟩
  · intro h
    unfold undo_last_pick
    rw [h]
    rfl
  · intro e td hlast htd
    have hehist : e ∈ st.draft_history := by
      rcases List.eq_nil_or_concat st.draft_history with hnil | ⟨l', e', hsplit⟩
      · rw [hnil] at hlast
        cases hlast
      · rw [List.concat_eq_append] at hsplit
        rw [hsplit] at hlast ⊢
        rw [List.getLast?_concat] at hlast
        have : e' = e := by simpa using hlast
        subst this
        simp
    have hmem_td : (e.player_name, e.role) ∈ td.players := by
      have h2 := hinv.hist_mem e hehist
      rw [htd] at h2
      simpa using h2
    rw [undo_eq st e hlast]
    refine ⟨rfl, rfl, ?_, ?_, ?_⟩
    · show dlookup (dmodify st.teams e.team_id _) e.team_id = _
      rw [dlookup_dmodify_self, htd]
      rfl
    · exact length_erase_add_one_beq hmem_td
    · intro r hr
      show e.player_name ∈ poolGet ((recOf st e.player_name).roles.foldl
        (fun pl rp => pool_append pl rp.1 e.player_name) st.players_by_role) r
      rw [mem_poolGet_restore]
      right
      exact ⟨rfl, hr⟩

/-- C5 counterexample: picking `A` from the pool `[A, B]` and undoing the
pick re-appends `A` at the end, so the pool comes back as `[B, A]` and the
state is not literally the initial state (though its membership is). -/
theorem claim5_counterexample :
    (undo_last_pick (pick_player_from_position stUndo "T" "carry" 10 segsUndo).2).2
      ≠ stUndo ∧
    (undo_last_pick
        (pick_player_from_position stUndo "T" "carry" 10 segsUndo).2).2.players_by_role
      ≠ stUndo.players_by_role := by
  constructor <;> with_unfolding_all decide

/-- Witness for C5 on the two-candidate state: undo with empty history is a
no-op returning `None`, and one valid pick followed by one undo returns to a
state equivalent to the start (identical teams, records and history, same
pool membership). -/
theorem claim5_undo_lifo_witness :
    undo_last_pick stUndo = (none, stUndo) ∧
    StateEquiv (undoIter (pickIter stUndo [⟨"T", "carry", 10, segsUndo⟩]) 1) stUndo := by
  have h := claim5_undo_lifo stUndo (by constructor <;> decide)
    (by unfold AvgOk; with_unfolding_all decide)
  refine ⟨h.1 rfl, h.2.2 [⟨"T", "carry", 10, segsUndo⟩] ?_⟩
  exact ValidPicks.cons _ _ _
    ⟨by decide, "A", by with_unfolding_all decide, "carry", by decide⟩
    (ValidPicks.nil _)

/-! ### Loading: the cleared state and the remaining-pool phase -/

theorem clear_state_inv (st : DraftState) (hkeys : (dkeys st.players_by_role).Nodup) :
    Inv (clear_state st) := by
  constructor
  case roster_nodup => exact List.nodup_nil
  case pools_nodup =>
      intro rl hrl
      obtain ⟨rl₀, _, rfl⟩ := List.mem_map.mp hrl
      exact List.nodup_nil
  case pool_sub =>
      intro rl hrl q hq
      obtain ⟨rl₀, _, rfl⟩ := List.mem_map.mp hrl
      cases hq
  case pool_complete => intro pi hpi; cases hpi
  case roster_known => intro q hq; cases hq
  case hist_team => intro e he; cases he
  case hist_mem => intro e he; cases he
  case hist_nodup => exact List.nodup_nil
  case roles_nodup => intro pi hpi; cases hpi
  case pool_keys_nodup =>
      show (dkeys (st.players_by_role.map (fun rl => (rl.1, [])))).Nodup
      rw [dkeys_map_values st.players_by_role (fun _ => [])]
      exact hkeys
  case team_keys_nodup => exact List.nodup_nil
  case player_keys_nodup => exact List.nodup_nil

theorem dinsert_of_none {κ β : Type} [DecidableEq κ] {m : List (κ × β)} {k : κ}
    (v : β) (h : dlookup m k = none) : dinsert m k v = m ++ [(k, v)] := by
  unfold dinsert
  rw [h]
  rfl

theorem load_rem_row_facts (st : DraftState) (name : String) (mmr : ℤ)
    (parsed : List (String × ℤ))
    (hinv : Inv st) (hteams : st.teams = []) (hhist : st.draft_history = [])
    (hfresh : dlookup st.all_players name = none)
    (hnd : (parsed.map Prod.fst).Nodup) :
    Inv (load_rem_row st name mmr parsed) ∧
    (load_rem_row st name mmr parsed).teams = [] ∧
    (load_rem_row st name mmr parsed).draft_history = [] ∧
    dkeys (load_rem_row st name mmr parsed).all_players
      = dkeys st.all_players ++ [name] := by
  have hnro : rosterNames st = [] := by
    unfold rosterNames
    rw [hteams]
    rfl
  have hnpool : ∀ r, name ∉ poolOf st r := by
    intro r hc
    obtain ⟨hrole, _⟩ := (mem_poolOf_iff_of_inv st hinv r name).mp hc
    have := roleNames_known st hrole
    rw [hfresh] at this
    cases this
  have hall : (load_rem_row st name mmr parsed).all_players
      = st.all_players ++ [(name, ⟨mmr, parsed⟩)] := by
    show dinsert st.all_players name ⟨mmr, parsed⟩ = _
    exact dinsert_of_none _ hfresh
  have hpool' : ∀ r, poolOf (load_rem_row st name mmr parsed) r
      = if r ∈ parsed.map Prod.fst then poolOf st r ++ [name] else poolOf st r := by
    intro r
    show poolGet (parsed.foldl (fun pl rp => pool_append pl rp.1 name)
      st.players_by_role) r = _
    exact poolGet_restore name parsed st.players_by_role r hnd
  have hrec_ne : ∀ q, q ≠ name →
      dlookup (load_rem_row st name mmr parsed).all_players q
        = dlookup st.all_players q := by
    intro q hq
    rw [hall]
    exact dlookup_concat_ne st.all_players name q ⟨mmr, parsed⟩ (fun he => hq he.symm)
  have hrec_name : dlookup (load_rem_row st name mmr parsed).all_players name
      = some ⟨mmr, parsed⟩ := by
    rw [hall, dlookup_append, hfresh]
    simp [dlookup]
  have hrosterL : rosterNames (load_rem_row st name mmr parsed) = [] := by
    unfold rosterNames
    show (st.teams.flatMap _) = []
    rw [hteams]
    rfl
  refine ⟨?_, hteams, hhist, by rw [hall]; simp [dkeys]⟩
  constructor
  case roster_nodup => rw [hrosterL]; exact List.nodup_nil
  case pools_nodup =>
      intro rl hrl
      have hkeys : (dkeys (load_rem_row st name mmr parsed).players_by_role).Nodup := by
        show (dkeys (parsed.foldl (fun pl rp => pool_append pl rp.1 name)
          st.players_by_role)).Nodup
        exact dkeys_restore_nodup name parsed st.players_by_role hinv.pool_keys_nodup
      have hl := dlookup_eq_some_of_mem_nodup hkeys hrl
      have heq : rl.2 = poolOf (load_rem_row st name mmr parsed) rl.1 := by
        unfold poolOf
        rw [show dlookup (load_rem_row st name mmr parsed).players_by_role rl.1
          = some rl.2 from hl]
        rfl
      rw [heq, hpool' rl.1]
      by_cases hr : rl.1 ∈ parsed.map Prod.fst
      · rw [if_pos hr, List.nodup_append]
        exact ⟨poolOf_nodup_of_inv st hinv rl.1, by simp,
          by intro q hq hq'; simp at hq'; subst hq'; exact hnpool rl.1 hq⟩
      · rw [if_neg hr]
        exact poolOf_nodup_of_inv st hinv rl.1
  case pool_sub =>
      intro rl hrl q hq
      have hkeys : (dkeys (load_rem_row st name mmr parsed).players_by_role).Nodup := by
        show (dkeys (parsed.foldl (fun pl rp => pool_append pl rp.1 name)
          st.players_by_role)).Nodup
        exact dkeys_restore_nodup name parsed st.players_by_role hinv.pool_keys_nodup
      have hl := dlookup_eq_some_of_mem_nodup hkeys hrl
      have hq' : q ∈ poolOf (load_rem_row st name mmr parsed) rl.1 := by
        unfold poolOf
        rw [show dlookup (load_rem_row st name mmr parsed).players_by_role rl.1
          = some rl.2 from hl]
        exact hq
      rw [hpool' rl.1] at hq'
      refine ⟨?_, by rw [hrosterL]; exact List.not_mem_nil q⟩
      by_cases hr : rl.1 ∈ parsed.map Prod.fst
      · rw [if_pos hr] at hq'
        rcases List.mem_append.mp hq' with hq' | hq'
        · obtain ⟨h1, _⟩ := (mem_poolOf_iff_of_inv st hinv rl.1 q).mp hq'
          have hqname : q ≠ name := fun he => hnpool rl.1 (he ▸ hq')
          unfold roleNamesOf recOf
          rw [hrec_ne q hqname]
          exact h1
        · simp only [List.mem_singleton] at hq'
          subst hq'
          unfold roleNamesOf recOf
          rw [hrec_name]
          exact hr
      · rw [if_neg hr] at hq'
        obtain ⟨h1, _⟩ := (mem_poolOf_iff_of_inv st hinv rl.1 q).mp hq'
        have hqname : q ≠ name := fun he => hnpool rl.1 (he ▸ hq')
        unfold roleNamesOf recOf
        rw [hrec_ne q hqname]
        exact h1
  case pool_complete =>
      intro pi hpi hq rp hrp
      rw [hall] at hpi
      rcases List.mem_append.mp hpi with hpi | hpi
      · have := hinv.pool_complete pi hpi (by rw [hnro]; exact List.not_mem_nil _) rp hrp
        rw [hpool' rp.1]
        by_cases hr : rp.1 ∈ parsed.map Prod.fst
        · rw [if_pos hr]
          exact List.mem_append_left _ this
        · rw [if_neg hr]
          exact this
      · simp only [List.mem_singleton] at hpi
        subst hpi
        simp only at hrp
        rw [hpool' rp.1, if_pos (List.mem_map_of_mem Prod.fst hrp)]
        simp
  case roster_known =>
      intro q hq
      rw [hrosterL] at hq
      cases hq
  case hist_team =>
      intro e he
      rw [show (load_rem_row st name mmr parsed).draft_history = st.draft_history
        from rfl, hhist] at he
      cases he
  case hist_mem =>
      intro e he
      rw [show (load_rem_row st name mmr parsed).draft_history = st.draft_history
        from rfl, hhist] at he
      cases he
  case hist_nodup =>
      rw [show (load_rem_row st name mmr parsed).draft_history = st.draft_history
        from rfl, hhist]
      exact List.nodup_nil
  case roles_nodup =>
      intro pi hpi
      rw [hall] at hpi
      rcases List.mem_append.mp hpi with hpi | hpi
      · exact hinv.roles_nodup pi hpi
      · simp only [List.mem_singleton] at hpi
        subst hpi
        exact hnd
  case pool_keys_nodup =>
      show (dkeys (parsed.foldl (fun pl rp => pool_append pl rp.1 name)
        st.players_by_role)).Nodup
      exact dkeys_restore_nodup name parsed st.players_by_role hinv.pool_keys_nodup
  case team_keys_nodup =>
      show (dkeys (load_rem_row st name mmr parsed).teams).Nodup
      rw [show (load_rem_row st name mmr parsed).teams = st.teams from rfl, hteams]
      exact List.nodup_nil
  case player_keys_nodup =>
      show (dkeys (load_rem_row st name mmr parsed).all_players).Nodup
      rw [hall]
      simp only [dkeys, List.map_append]
      rw [List.nodup_append]
      refine ⟨hinv.player_keys_nodup, by simp, ?_⟩
      intro q hq hq'
      simp at hq'
      subst hq'
      rw [dlookup_eq_none_iff_not_mem] at hfresh
      exact hfresh hq

theorem phase1_teams (rows : List RemRow) : ∀ (st : DraftState),
    (rows.foldl (fun s row => load_rem_row s row.name.trim row.mmr
      (parse_roles_with_priority row.roles.trim)) st).teams = st.teams := by
  induction rows with
  | nil => intro st; rfl
  | cons row rest ih => intro st; rw [List.foldl_cons, ih]; rfl

theorem phase1_hist (rows : List RemRow) : ∀ (st : DraftState),
    (rows.foldl (fun s row => load_rem_row s row.name.trim row.mmr
      (parse_roles_with_priority row.roles.trim)) st).draft_history
      = st.draft_history := by
  induction rows with
  | nil => intro st; rfl
  | cons row rest ih => intro st; rw [List.foldl_cons, ih]; rfl

theorem phase1_lookup_miss (rows : List RemRow) : ∀ (st : DraftState) (q : String),
    (∀ row ∈ rows, row.name.trim ≠ q) →
    dlookup (rows.foldl (fun s row => load_rem_row s row.name.trim row.mmr
      (parse_roles_with_priority row.roles.trim)) st).all_players q
      = dlookup st.all_players q := by
  induction rows with
  | nil => intro st q _; rfl
  | cons row rest ih =>
      intro st q hne
      rw [List.foldl_cons, ih _ _ (fun r hr => hne r (List.mem_cons_of_mem _ hr))]
      show dlookup (dinsert st.all_players row.name.trim _) q = _
      exact dlookup_dinsert_ne _ _ _ _ (hne row (List.mem_cons_self _ _))

theorem phase1_lookup_hit (rows : List RemRow) : ∀ (st : DraftState) (row : RemRow),
    row ∈ rows → ((rows.map (fun r => r.name.trim)).Nodup) →
    dlookup (rows.foldl (fun s row => load_rem_row s row.name.trim row.mmr
      (parse_roles_with_priority row.roles.trim)) st).all_players row.name.trim
      = some ⟨row.mmr, parse_roles_with_priority row.roles.trim⟩ := by
  induction rows with
  | nil => intro st row hmem; cases hmem
  | cons r0 rest ih =>
      intro st row hmem hnd
      simp only [List.map_cons, List.nodup_cons] at hnd
      rcases List.mem_cons.mp hmem with he | hm
      · subst he
        rw [List.foldl_cons]
        rw [phase1_lookup_miss rest _ _ (by
          intro r' hr' hc
          exact hnd.1 (hc ▸ List.mem_map_of_mem (fun r => r.name.trim) hr'))]
        show dlookup (dinsert st.all_players row.name.trim
          ⟨row.mmr, parse_roles_with_priority row.roles.trim⟩) row.name.trim = _
        exact dlookup_dinsert_self _ _ _
      · rw [List.foldl_cons]
        exact ih _ row hm hnd.2

theorem phase1_pool_mem (rows : List RemRow) : ∀ (st : DraftState) (r q : String),
    q ∈ poolOf (rows.foldl (fun s row => load_rem_row s row.name.trim row.mmr
      (parse_roles_with_priority row.roles.trim)) st) r
    ↔ q ∈ poolOf st r ∨ ∃ row ∈ rows, q = row.name.trim ∧
        r ∈ (parse_roles_with_priority row.roles.trim).map Prod.fst := by
  induction rows with
  | nil => intro st r q; simp
  | cons row rest ih =>
      intro st r q
      rw [List.foldl_cons, ih]
      have hstep : q ∈ poolOf (load_rem_row st row.name.trim row.mmr
          (parse_roles_with_priority row.roles.trim)) r
          ↔ q ∈ poolOf st r ∨ (q = row.name.trim ∧
            r ∈ (parse_roles_with_priority row.roles.trim).map Prod.fst) := by
        show q ∈ poolGet ((parse_roles_with_priority row.roles.trim).foldl
          (fun pl rp => pool_append pl rp.1 row.name.trim) st.players_by_role) r ↔ _
        rw [mem_poolGet_restore]
        rfl
      rw [hstep]
      constructor
      · rintro ((hq | hq) | ⟨row', hrow', hq⟩)
        · exact Or.inl hq
        · exact Or.inr ⟨row, List.mem_cons_self _ _, hq⟩
        · exact Or.inr ⟨row', List.mem_cons_of_mem _ hrow', hq⟩
      · rintro (hq | ⟨row', hrow', hq⟩)
        · exact Or.inl (Or.inl hq)
        · rcases List.mem_cons.mp hrow' with he | hm
          · subst he
            exact Or.inl (Or.inr hq)
          · exact Or.inr ⟨row', hm, hq⟩

theorem phase1_facts (rows : List RemRow) : ∀ (st : DraftState),
    Inv st → st.teams = [] → st.draft_history = [] →
    (∀ row ∈ rows, row.name.trim ∉ dkeys st.all_players) →
    ((rows.map (fun r => r.name.trim)).Nodup) →
    (∀ row ∈ rows, ((parse_roles_with_priority row.roles.trim).map Prod.fst).Nodup) →
    Inv (rows.foldl (fun s row => load_rem_row s row.name.trim row.mmr
      (parse_roles_with_priority row.roles.trim)) st) := by
  induction rows with
  | nil => intro st hinv _ _ _ _ _; exact hinv
  | cons row rest ih =>
      intro st hinv hteams hhist hfresh hnd hroles
      simp only [List.map_cons, List.nodup_cons] at hnd
      rw [List.foldl_cons]
      obtain ⟨hinv', hteams', hhist', hkeys'⟩ := load_rem_row_facts st row.name.trim
        row.mmr (parse_roles_with_priority row.roles.trim) hinv hteams hhist
        ((dlookup_eq_none_iff_not_mem _ _).mpr (hfresh row (List.mem_cons_self _ _)))
        (hroles row (List.mem_cons_self _ _))
      apply ih _ hinv' hteams' hhist'
      · intro row' hrow'
        rw [hkeys']
        intro hc
        rcases List.mem_append.mp hc with hc | hc
        · exact hfresh row' (List.mem_cons_of_mem _ hrow') hc
        · simp only [List.mem_singleton] at hc
          exact hnd.1 (hc ▸ List.mem_map_of_mem (fun r => r.name.trim) hrow')
      · exact hnd.2
      · intro row' hrow'
        exact hroles row' (List.mem_cons_of_mem _ hrow')

/-! ### Loading: the team-rows phases -/

theorem opt_some_or {α : Type} (a : α) (o : Option α) : (some a).or o = some a := rfl

theorem opt_none_or {α : Type} (o : Option α) : (Option.none).or o = o := rfl

theorem fmap_cons_none {α β : Type} (f : α → Option β) (a : α) (l : List α)
    (h : f a = none) : (a :: l).filterMap f = l.filterMap f := by
  simp [List.filterMap_cons, h]

theorem fmap_cons_some {α β : Type} (f : α → Option β) (a : α) (l : List α) {b : β}
    (h : f a = some b) : (a :: l).filterMap f = b :: l.filterMap f := by
  simp [List.filterMap_cons, h]

theorem flatMap_map_distr {α β γ : Type} (l : List α) (f : α → β) (g : β → List γ) :
    (l.map f).flatMap g = l.flatMap (fun a => g (f a)) := by
  induction l with
  | nil => rfl
  | cons a rest ih => simp only [List.map_cons, List.flatMap_cons, ih]

theorem map_flatMap_distr {α β γ : Type} (l : List α) (f : α → List β) (g : β → γ) :
    (l.flatMap f).map g = l.flatMap (fun a => (f a).map g) := by
  induction l with
  | nil => rfl
  | cons a rest ih => simp only [List.flatMap_cons, List.map_append, ih]

theorem map_pair_eta {α β : Type} (ps : List (α × β)) : ps.map (fun pr => (pr.1, pr.2)) = ps := by
  induction ps with
  | nil => rfl
  | cons p rest ih => simp only [List.map_cons, ih]

/-- Erasing a name that no pool holds leaves the pool dictionary unchanged. -/
theorem erase_map_id (pools : List (String × List String)) (p : String)
    (hnd : (dkeys pools).Nodup) (h : ∀ r, p ∉ poolGet pools r) :
    pools.map (fun rl => (rl.1, rl.2.erase p)) = pools := by
  have hfix : ∀ rl ∈ pools, (rl.1, rl.2.erase p) = rl := by
    intro rl hrl
    have hlook : dlookup pools rl.1 = some rl.2 := dlookup_eq_some_of_mem_nodup hnd hrl
    have hp : p ∉ rl.2 := by
      have hr := h rl.1
      unfold poolGet at hr
      rw [hlook] at hr
      exact hr
    rw [List.erase_of_not_mem hp]
  exact (List.map_congr_left hfix).trans (List.map_id _)

theorem dmodify_append_single {κ β : Type} [DecidableEq κ] (m : List (κ × β)) (k : κ)
    (v : β) (f : β → β) (h : k ∉ dkeys m) :
    dmodify (m ++ [(k, v)]) k f = m ++ [(k, f v)] := by
  have h1 : m.map (fun kv => if kv.1 = k then (kv.1, f kv.2) else kv) = m := by
    rw [← dmodify_eq_map]
    exact dmodify_of_not_mem f h
  have h2 : ([(k, v)] : List (κ × β)).map
      (fun kv => if kv.1 = k then (kv.1, f kv.2) else kv) = [(k, f v)] := by
    simp
  rw [dmodify_eq_map, List.map_append, h1, h2]

theorem group_team_rows_eq (rows : List TeamRow) :
    group_team_rows rows = rows.foldl group_step [] := rfl

/-- Rows that all belong to the team last appended to the accumulator extend
that team's entry list in order. -/
theorem group_block (rows : List TeamRow) :
    ∀ (acc₀ : List (String × List (String × String × ℤ))) (tid : String)
      (l : List (String × String × ℤ)),
    (∀ row ∈ rows, row.team_id.trim = tid) → tid ∉ dkeys acc₀ →
    rows.foldl group_step (acc₀ ++ [(tid, l)])
      = acc₀ ++ [(tid, l ++ rows.map
          (fun row => (row.name.trim, row.assigned_role.trim, row.mmr)))] := by
  induction rows with
  | nil => intro acc₀ tid l _ _; simp
  | cons row rest ih =>
      intro acc₀ tid l htid hacc
      rw [List.foldl_cons]
      have hlook : dlookup (acc₀ ++ [(tid, l)]) tid = some l := by
        rw [dlookup_append, (dlookup_eq_none_iff_not_mem acc₀ tid).mpr hacc]
        simp [dlookup]
      have hs : (dlookup (acc₀ ++ [(tid, l)]) tid).isSome = true := by
        rw [hlook]; rfl
      have hstep : group_step (acc₀ ++ [(tid, l)]) row
          = acc₀ ++ [(tid, l ++ [(row.name.trim, row.assigned_role.trim, row.mmr)])] := by
        unfold group_step
        rw [htid row (List.mem_cons_self _ _), if_pos hs,
          dmodify_append_single _ _ _ _ hacc]
      rw [hstep, ih acc₀ tid _ (fun r hr => htid r (List.mem_cons_of_mem _ hr)) hacc]
      simp [List.append_assoc]

/-- Grouping the flattened team rows of a trim-clean team dictionary with
duplicate-free keys and non-empty rosters recovers one group per team, in
order. -/
theorem group_flat (teams : List (String × TeamData)) :
    ∀ (acc : List (String × List (String × String × ℤ))) (F : String → ℤ),
    (∀ td ∈ teams, (td.1 : String).trim = td.1) →
    (∀ td ∈ teams, (td.2 : TeamData).players ≠ []) →
    (∀ td ∈ teams, ∀ pr ∈ (td.2 : TeamData).players,
      (pr.1 : String).trim = pr.1 ∧ (pr.2 : String).trim = pr.2) →
    ((dkeys teams).Nodup) →
    (∀ td ∈ teams, td.1 ∉ dkeys acc) →
    (teams.flatMap (fun td => td.2.players.map (fun pr =>
        (⟨td.1, pr.1, pr.2, F pr.1⟩ : TeamRow)))).foldl group_step acc
      = acc ++ teams.map (fun td =>
          (td.1, td.2.players.map (fun pr => (pr.1, pr.2, F pr.1)))) := by
  induction teams with
  | nil => intro acc F _ _ _ _ _; simp
  | cons td rest ih =>
      intro acc F htrimT hne htrimP hnd hacc
      simp only [dkeys, List.map_cons, List.nodup_cons] at hnd
      rw [List.flatMap_cons, List.foldl_append]
      obtain ⟨pr₀, prs, hps⟩ := List.exists_cons_of_ne_nil (hne td (List.mem_cons_self _ _))
      have htd : td.1 ∉ dkeys acc := hacc td (List.mem_cons_self _ _)
      rw [hps, List.map_cons, List.foldl_cons]
      have hs' : ¬((dlookup acc (⟨td.1, pr₀.1, pr₀.2, F pr₀.1⟩ : TeamRow).team_id.trim).isSome
          = true) := by
        show ¬((dlookup acc td.1.trim).isSome = true)
        rw [htrimT td (List.mem_cons_self _ _)]
        intro hc
        exact htd ((dlookup_isSome_iff_mem_dkeys acc td.1).mp hc)
      have hpr₀ : pr₀ ∈ (td.2 : TeamData).players := by
        rw [hps]; exact List.mem_cons_self _ _
      have hstep : group_step acc (⟨td.1, pr₀.1, pr₀.2, F pr₀.1⟩ : TeamRow)
          = acc ++ [(td.1, [(pr₀.1, pr₀.2, F pr₀.1)])] := by
        unfold group_step
        rw [if_neg hs']
        show acc ++ [(td.1.trim, [(pr₀.1.trim, pr₀.2.trim, F pr₀.1)])] = _
        rw [htrimT td (List.mem_cons_self _ _),
          (htrimP td (List.mem_cons_self _ _) pr₀ hpr₀).1,
          (htrimP td (List.mem_cons_self _ _) pr₀ hpr₀).2]
      rw [hstep]
      have hblock := group_block
        (prs.map (fun pr => (⟨td.1, pr.1, pr.2, F pr.1⟩ : TeamRow))) acc td.1
        [(pr₀.1, pr₀.2, F pr₀.1)]
        (by
          intro row hrow
          obtain ⟨pr, _, rfl⟩ := List.mem_map.mp hrow
          show td.1.trim = td.1
          exact htrimT td (List.mem_cons_self _ _)) htd
      rw [hblock]
      have hmm : ((prs.map (fun pr => (⟨td.1, pr.1, pr.2, F pr.1⟩ : TeamRow))).map
          (fun row => (row.name.trim, row.assigned_role.trim, row.mmr)))
          = prs.map (fun pr => (pr.1, pr.2, F pr.1)) := by
        rw [List.map_map]
        apply List.map_congr_left
        intro pr hpr
        have hpr' : pr ∈ (td.2 : TeamData).players := by
          rw [hps]; exact List.mem_cons_of_mem _ hpr
        show (pr.1.trim, pr.2.trim, F pr.1) = (pr.1, pr.2, F pr.1)
        rw [(htrimP td (List.mem_cons_self _ _) pr hpr').1,
          (htrimP td (List.mem_cons_self _ _) pr hpr').2]
      rw [hmm]
      have hih := ih (acc ++ [(td.1, (pr₀.1, pr₀.2, F pr₀.1) :: prs.map
          (fun pr => (pr.1, pr.2, F pr.1)))]) F
        (fun t ht => htrimT t (List.mem_cons_of_mem _ ht))
        (fun t ht => hne t (List.mem_cons_of_mem _ ht))
        (fun t ht pr hpr => htrimP t (List.mem_cons_of_mem _ ht) pr hpr)
        hnd.2
        (by
          intro t ht hc
          unfold dkeys at hc
          rw [List.map_append] at hc
          rcases List.mem_append.mp hc with hc | hc
          · exact hacc t (List.mem_cons_of_mem _ ht) hc
          · simp only [List.map_cons, List.map_nil, List.mem_singleton] at hc
            exact hnd.1 (hc ▸ List.mem_map_of_mem Prod.fst ht))
      simp only [List.map_cons]
      rw [hps, List.map_cons, List.singleton_append, hih]
      simp [List.append_assoc]

/-- The row loop of `load_player_data` preserves the invariant on a fresh
(no-team, no-history) state with well-formed rows. -/
theorem load_rows_inv : ∀ (rows : List RawRow) (st : DraftState),
    Inv st → st.teams = [] → st.draft_history = [] →
    (∀ row ∈ rows, row.name.trim ∉ dkeys st.all_players) →
    ((rows.map (fun r => r.name.trim)).Nodup) →
    (∀ row ∈ rows, ((parse_roles_with_priority row.roles.trim).map Prod.fst).Nodup) →
    Inv (load_rows st rows) := by
  intro rows
  induction rows with
  | nil => intro st hinv _ _ _ _ _; exact hinv
  | cons row rest ih =>
      intro st hinv hteams hhist hfresh hnd hroles
      simp only [List.map_cons, List.nodup_cons] at hnd
      unfold load_rows
      cases hm : pyInt row.mmr with
      | none => exact hinv
      | some m =>
          obtain ⟨hinv', hteams', hhist', hkeys'⟩ := load_rem_row_facts st row.name.trim m
            (parse_roles_with_priority row.roles.trim) hinv hteams hhist
            ((dlookup_eq_none_iff_not_mem _ _).mpr (hfresh row (List.mem_cons_self _ _)))
            (hroles row (List.mem_cons_self _ _))
          apply ih _ hinv' hteams' hhist'
          · intro row' hrow'
            rw [hkeys']
            intro hc
            rcases List.mem_append.mp hc with hc | hc
            · exact hfresh row' (List.mem_cons_of_mem _ hrow') hc
            · simp only [List.mem_singleton] at hc
              exact hnd.1 (hc ▸ List.mem_map_of_mem (fun r => r.name.trim) hrow')
          · exact hnd.2
          · intro row' hrow'
            exact hroles row' (List.mem_cons_of_mem _ hrow')

/-- The inner loop of phase 3: loading the entries of one team appends their
fresh records, appends them to that team's roster, and touches nothing else
(the pool removals are no-ops because drafted names are in no pool). -/
theorem load_entries_facts (entries : List (String × String × ℤ)) :
    ∀ (s : DraftState) (tid : String) (T₀ : List (String × TeamData))
      (cur : List (String × String)),
    s.teams = T₀ ++ [(tid, ⟨cur, 0⟩)] → tid ∉ dkeys T₀ →
    s.draft_history = [] →
    ((dkeys s.players_by_role).Nodup) →
    (∀ e ∈ entries, ∀ r, (e.1 : String) ∉ poolGet s.players_by_role r) →
    (∀ e ∈ entries, dlookup s.all_players e.1 = none) →
    ((entries.map (fun e => e.1)).Nodup) →
    (entries.foldl (fun s' e => load_team_entry s' tid e) s).players_by_role
        = s.players_by_role ∧
    (entries.foldl (fun s' e => load_team_entry s' tid e) s).all_players
        = s.all_players ++ entries.map (fun e => (e.1, (⟨e.2.2, []⟩ : PlayerInfo))) ∧
    (entries.foldl (fun s' e => load_team_entry s' tid e) s).teams
        = T₀ ++ [(tid, ⟨cur ++ entries.map (fun e => (e.1, e.2.1)), 0⟩)] ∧
    (entries.foldl (fun s' e => load_team_entry s' tid e) s).draft_history = [] := by
  induction entries with
  | nil =>
      intro s tid T₀ cur hteams hT₀ hhist _ _ _ _
      refine ⟨rfl, by simp, ?_, hhist⟩
      simp only [List.foldl_nil, List.map_nil, List.append_nil]
      rw [hteams]
  | cons e rest ih =>
      intro s tid T₀ cur hteams hT₀ hhist hkeys hpool hall hnd
      simp only [List.map_cons, List.nodup_cons] at hnd
      rw [List.foldl_cons]
      have hload : load_team_entry s tid e =
          { players_by_role := s.players_by_role.map (fun rl => (rl.1, rl.2.erase e.1))
          , all_players := s.all_players ++ [(e.1, ⟨e.2.2, []⟩)]
          , teams := dmodify s.teams tid
              (fun td => ⟨td.players ++ [(e.1, e.2.1)], td.average_mmr⟩)
          , draft_history := s.draft_history } := by
        unfold load_team_entry remove_player
        have hcond : ¬((dlookup s.all_players e.1).isSome = true) := by
          rw [hall e (List.mem_cons_self _ _)]
          simp
        rw [if_neg hcond]
      have hpools : (load_team_entry s tid e).players_by_role = s.players_by_role := by
        rw [hload]
        exact erase_map_id s.players_by_role e.1 hkeys (hpool e (List.mem_cons_self _ _))
      have hall1 : (load_team_entry s tid e).all_players
          = s.all_players ++ [(e.1, ⟨e.2.2, []⟩)] := by
        rw [hload]
      have hteams1 : (load_team_entry s tid e).teams
          = T₀ ++ [(tid, ⟨cur ++ [(e.1, e.2.1)], 0⟩)] := by
        rw [hload]
        show dmodify s.teams tid _ = _
        rw [hteams, dmodify_append_single _ _ _ _ hT₀]
      have hhist1 : (load_team_entry s tid e).draft_history = [] := by
        rw [hload]
        exact hhist
      obtain ⟨i1, i2, i3, i4⟩ := ih (load_team_entry s tid e) tid T₀ (cur ++ [(e.1, e.2.1)])
        hteams1 hT₀ hhist1
        (by rw [hpools]; exact hkeys)
        (by
          intro e' he' r
          rw [hpools]
          exact hpool e' (List.mem_cons_of_mem _ he') r)
        (by
          intro e' he'
          have hne : ¬((e.1 : String) = e'.1) := by
            intro hc
            apply hnd.1
            rw [hc]
            exact List.mem_map_of_mem (fun x => x.1) he'
          rw [hall1, dlookup_concat_ne _ _ _ _ hne]
          exact hall e' (List.mem_cons_of_mem _ he'))
        hnd.2
      refine ⟨?_, ?_, ?_, i4⟩
      · rw [i1, hpools]
      · rw [i2, hall1]
        simp [List.append_assoc]
      · rw [i3]
        simp [List.append_assoc]

/-- Phase 3 of `load_state`: folding the groups over a team-free state with
drafted names absent from records and pools appends one fresh record per row
and one roster-complete team (average still 0) per group. -/
theorem load_groups_facts (groups : List (String × List (String × String × ℤ))) :
    ∀ (s : DraftState),
    s.draft_history = [] →
    ((dkeys s.players_by_role).Nodup) →
    ((dkeys groups).Nodup) →
    (∀ g ∈ groups, (g.1 : String) ∉ dkeys s.teams) →
    (∀ g ∈ groups, ∀ e ∈ (g.2 : List (String × String × ℤ)), ∀ r,
      (e.1 : String) ∉ poolGet s.players_by_role r) →
    (∀ g ∈ groups, ∀ e ∈ (g.2 : List (String × String × ℤ)),
      dlookup s.all_players e.1 = none) →
    ((groups.flatMap (fun g => g.2.map (fun e => e.1))).Nodup) →
    (groups.foldl load_group s).players_by_role = s.players_by_role ∧
    (groups.foldl load_group s).all_players
        = s.all_players ++ groups.flatMap (fun g => g.2.map
            (fun e => (e.1, (⟨e.2.2, []⟩ : PlayerInfo)))) ∧
    (groups.foldl load_group s).teams
        = s.teams ++ groups.map (fun g =>
            (g.1, (⟨g.2.map (fun e => (e.1, e.2.1)), 0⟩ : TeamData))) ∧
    (groups.foldl load_group s).draft_history = [] := by
  induction groups with
  | nil => intro s hh _ _ _ _ _ _; exact ⟨rfl, by simp, by simp, hh⟩
  | cons g rest ih =>
      intro s hh hk hgnd hTfresh hpool hall hflat
      simp only [dkeys, List.map_cons, List.nodup_cons] at hgnd
      rw [List.flatMap_cons, List.nodup_append] at hflat
      rw [List.foldl_cons]
      have hreg : register_team s g.1 = { s with teams := s.teams ++ [(g.1, ⟨[], 0⟩)] } := by
        unfold register_team
        have hcond : ¬((dlookup s.teams g.1).isSome = true) := by
          rw [(dlookup_eq_none_iff_not_mem _ _).mpr (hTfresh g (List.mem_cons_self _ _))]
          simp
        rw [if_neg hcond]
      have hlg : load_group s g
          = g.2.foldl (fun s' e => load_team_entry s' g.1 e) (register_team s g.1) := rfl
      obtain ⟨e1, e2, e3, e4⟩ := load_entries_facts g.2 (register_team s g.1) g.1 s.teams []
        (by rw [hreg])
        (hTfresh g (List.mem_cons_self _ _))
        (by rw [hreg]; exact hh)
        (by rw [hreg]; exact hk)
        (by
          intro e he r
          rw [hreg]
          exact hpool g (List.mem_cons_self _ _) e he r)
        (by
          intro e he
          rw [hreg]
          exact hall g (List.mem_cons_self _ _) e he)
        hflat.1
      have s1_pools : (load_group s g).players_by_role = s.players_by_role := by
        rw [hlg, e1, hreg]
      have s1_all : (load_group s g).all_players
          = s.all_players ++ g.2.map (fun e => (e.1, (⟨e.2.2, []⟩ : PlayerInfo))) := by
        rw [hlg, e2, hreg]
      have s1_teams : (load_group s g).teams
          = s.teams ++ [(g.1, ⟨g.2.map (fun e => (e.1, e.2.1)), 0⟩)] := by
        rw [hlg, e3]
        simp
      have s1_hist : (load_group s g).draft_history = [] := by
        rw [hlg]
        exact e4
      have hGnames : dkeys (g.2.map (fun e => (e.1, (⟨e.2.2, []⟩ : PlayerInfo))))
          = g.2.map (fun e => e.1) := by
        unfold dkeys
        rw [List.map_map]
        rfl
      obtain ⟨i1, i2, i3, i4⟩ := ih (load_group s g) s1_hist
        (by rw [s1_pools]; exact hk)
        hgnd.2
        (by
          intro g' hg' hc
          rw [s1_teams] at hc
          unfold dkeys at hc
          rw [List.map_append] at hc
          rcases List.mem_append.mp hc with hc | hc
          · exact hTfresh g' (List.mem_cons_of_mem _ hg') hc
          · simp only [List.map_cons, List.map_nil, List.mem_singleton] at hc
            exact hgnd.1 (hc ▸ List.mem_map_of_mem Prod.fst hg'))
        (by
          intro g' hg' e he r
          rw [s1_pools]
          exact hpool g' (List.mem_cons_of_mem _ hg') e he r)
        (by
          intro g' hg' e he
          rw [s1_all, dlookup_append,
            hall g' (List.mem_cons_of_mem _ hg') e he, opt_none_or,
            (dlookup_eq_none_iff_not_mem _ _).mpr ?hnm]
          case hnm =>
            rw [hGnames]
            intro hc
            exact hflat.2.2 hc (List.mem_flatMap.mpr
              ⟨g', hg', List.mem_map_of_mem (fun x => x.1) he⟩))
        hflat.2.1
      refine ⟨?_, ?_, ?_, i4⟩
      · rw [i1, s1_pools]
      · rw [i2, s1_all, List.flatMap_cons]
        simp [List.append_assoc]
      · rw [i3, s1_teams, List.map_cons]
        simp [List.append_assoc]

/-! ### The save/load round trip -/

theorem poolGet_clear (pools : List (String × List String)) (r : String) :
    poolGet (pools.map (fun rl => (rl.1, ([] : List String)))) r = [] := by
  unfold poolGet
  cases h : dlookup (pools.map (fun rl => (rl.1, ([] : List String)))) r with
  | none => rfl
  | some l =>
      obtain ⟨rl, _, heq⟩ := List.mem_map.mp (dlookup_some_mem h)
      have h2 : ([] : List String) = l := congrArg Prod.snd heq
      rw [← h2]
      rfl

/-- Trimmed names of the saved remaining rows are duplicate-free when the
record keys are and every name is trim-clean. -/
theorem rem_names_nodup (assigned : List String) :
    ∀ (l : List (String × PlayerInfo)), (dkeys l).Nodup →
    (∀ pi ∈ l, (pi.1 : String).trim = pi.1) →
    ((l.filterMap (fun pi => if pi.1 ∈ assigned then none
        else some (⟨pi.1, pi.2.mmr, roles_to_string pi.2.roles⟩ : RemRow))).map
      (fun r => r.name.trim)).Nodup := by
  intro l
  induction l with
  | nil => intro _ _; exact List.nodup_nil
  | cons pi rest ih =>
      intro hnd htrim
      simp only [dkeys, List.map_cons, List.nodup_cons] at hnd
      have htrim' : ∀ q ∈ rest, (q.1 : String).trim = q.1 :=
        fun q hq => htrim q (List.mem_cons_of_mem _ hq)
      by_cases hm : pi.1 ∈ assigned
      · rw [fmap_cons_none _ _ _ (by rw [if_pos hm])]
        exact ih hnd.2 htrim'
      · rw [fmap_cons_some _ _ _ (by rw [if_neg hm])]
        rw [List.map_cons, List.nodup_cons]
        refine ⟨?_, ih hnd.2 htrim'⟩
        show pi.1.trim ∉ _
        rw [htrim pi (List.mem_cons_self _ _)]
        intro hc
        obtain ⟨row, hrow, heq⟩ := List.mem_map.mp hc
        obtain ⟨q, hq, hfq⟩ := List.mem_filterMap.mp hrow
        by_cases hmq : q.1 ∈ assigned
        · rw [if_pos hmq] at hfq; cases hfq
        · rw [if_neg hmq] at hfq
          have hrow_eq := (Option.some.inj hfq).symm
          rw [hrow_eq] at heq
          have heq' : q.1.trim = pi.1 := heq
          rw [htrim' q hq] at heq'
          exact hnd.1 (heq' ▸ List.mem_map_of_mem Prod.fst hq)

theorem flat_names_eq (teams : List (String × TeamData)) (F : String → ℤ) :
    (teams.map (fun td => (td.1, td.2.players.map
        (fun pr => (pr.1, pr.2, F pr.1))))).flatMap
      (fun g => g.2.map (fun e => e.1))
    = teams.flatMap (fun td => td.2.players.map Prod.fst) := by
  induction teams with
  | nil => rfl
  | cons td rest ih =>
      simp only [List.map_cons, List.flatMap_cons, ih, List.map_map]
      congr 1

theorem flat_recs_eq (teams : List (String × TeamData)) (F : String → ℤ) :
    (teams.map (fun td => (td.1, td.2.players.map
        (fun pr => (pr.1, pr.2, F pr.1))))).flatMap
      (fun g => g.2.map (fun e => (e.1, (⟨e.2.2, []⟩ : PlayerInfo))))
    = teams.flatMap (fun td => td.2.players.map
        (fun pr => (pr.1, (⟨F pr.1, []⟩ : PlayerInfo)))) := by
  induction teams with
  | nil => rfl
  | cons td rest ih =>
      simp only [List.map_cons, List.flatMap_cons, ih, List.map_map]
      congr 1

theorem flat_recs_keys (teams : List (String × TeamData)) (F : String → ℤ) :
    dkeys (teams.flatMap (fun td => td.2.players.map
      (fun pr => (pr.1, (⟨F pr.1, []⟩ : PlayerInfo)))))
    = teams.flatMap (fun td => td.2.players.map Prod.fst) := by
  induction teams with
  | nil => rfl
  | cons td rest ih =>
      unfold dkeys at ih ⊢
      simp only [List.flatMap_cons, List.map_append, ih, List.map_map]
      congr 1

theorem block_teams_eq (teams : List (String × TeamData)) (F : String → ℤ) :
    (teams.map (fun td => (td.1, td.2.players.map
        (fun pr => (pr.1, pr.2, F pr.1))))).map
      (fun g => (g.1, (⟨g.2.map (fun e => (e.1, e.2.1)), 0⟩ : TeamData)))
    = teams.map (fun td => (td.1, (⟨td.2.players, 0⟩ : TeamData))) := by
  rw [List.map_map]
  apply List.map_congr_left
  intro td _
  show (td.1, (⟨(td.2.players.map (fun pr => (pr.1, pr.2, F pr.1))).map
      (fun e => (e.1, e.2.1)), 0⟩ : TeamData)) = _
  rw [List.map_map]
  have h2 : td.2.players.map ((fun e => ((e.1 : String), (e.2.1 : String)))
        ∘ (fun pr => (pr.1, pr.2, F pr.1)))
      = td.2.players.map (fun pr => (pr.1, pr.2)) :=
    List.map_congr_left (fun pr _ => rfl)
  rw [h2, map_pair_eta]

/-- C6: on an invariant-satisfying state with consistent averages, trim-clean
names, team ids and assigned roles, round-trippable role strings and no empty
team, save followed by load reproduces the undrafted records and the pool
membership exactly, reproduces every team (players and average rating)
exactly, and clears the history; drafted players, however, come back with the
same rating but an EMPTY role-priority list, because the teams file stores no
roles. -/
theorem claim6_save_load_roundtrip (st : DraftState)
    (hinv : Inv st) (havg : AvgOk st)
    (htrimN : ∀ pi ∈ st.all_players, (pi.1 : String).trim = pi.1)
    (htrimT : ∀ td ∈ st.teams, (td.1 : String).trim = td.1)
    (htrimR : ∀ td ∈ st.teams, ∀ pr ∈ (td.2 : TeamData).players,
      (pr.2 : String).trim = pr.2)
    (hneT : ∀ td ∈ st.teams, (td.2 : TeamData).players ≠ [])
    (hprint : ∀ pi ∈ st.all_players,
      parse_roles_with_priority ((roles_to_string (pi.2 : PlayerInfo).roles).trim)
        = pi.2.roles) :
    (∀ p, p ∉ rosterNames st →
      dlookup (load_state st (save_state st).1 (save_state st).2).all_players p
        = dlookup st.all_players p) ∧
    (∀ p, p ∈ rosterNames st →
      dlookup (load_state st (save_state st).1 (save_state st).2).all_players p
        = some ⟨(recOf st p).mmr, []⟩) ∧
    (∀ r q, q ∈ poolOf (load_state st (save_state st).1 (save_state st).2) r
        ↔ q ∈ poolOf st r) ∧
    (load_state st (save_state st).1 (save_state st).2).teams = st.teams ∧
    (load_state st (save_state st).1 (save_state st).2).draft_history = [] := by
  set F : String → ℤ := fun p => ((dlookup st.all_players p).getD defaultInfo).mmr with hF
  set remRows : List RemRow := (save_state st).1 with hremdef
  set teamRows : List TeamRow := (save_state st).2 with hteamdef
  have hrem : remRows = st.all_players.filterMap (fun pi =>
      if pi.1 ∈ rosterNames st then none
      else some (⟨pi.1, pi.2.mmr, roles_to_string pi.2.roles⟩ : RemRow)) := rfl
  have hteamRows : teamRows = st.teams.flatMap (fun td =>
      td.2.players.map (fun pr => (⟨td.1, pr.1, pr.2, F pr.1⟩ : TeamRow))) := rfl
  set st₁ := remRows.foldl (fun s row => load_rem_row s row.name.trim row.mmr
    (parse_roles_with_priority row.roles.trim)) (clear_state st) with hst1
  set st₂ := (group_team_rows teamRows).foldl load_group st₁ with hst2
  have hall2 : (load_state st remRows teamRows).all_players = st₂.all_players := rfl
  have hpools2 : (load_state st remRows teamRows).players_by_role
      = st₂.players_by_role := rfl
  have hhist2 : (load_state st remRows teamRows).draft_history
      = st₂.draft_history := rfl
  have hteams2 : (load_state st remRows teamRows).teams
      = st₂.teams.map (fun td => (td.1, ⟨td.2.players,
          if td.2.players = [] then 0
          else avgOf st₂.all_players td.2.players⟩)) := rfl
  have hremMem : ∀ row ∈ remRows, ∃ pi, pi ∈ st.all_players ∧
      pi.1 ∉ rosterNames st ∧
      row = ⟨pi.1, pi.2.mmr, roles_to_string pi.2.roles⟩ := by
    intro row hrow
    rw [hrem] at hrow
    obtain ⟨pi, hpi, hf⟩ := List.mem_filterMap.mp hrow
    by_cases hm : pi.1 ∈ rosterNames st
    · rw [if_pos hm] at hf; cases hf
    · rw [if_neg hm] at hf
      exact ⟨pi, hpi, hm, (Option.some.inj hf).symm⟩
  have hremIn : ∀ pi ∈ st.all_players, pi.1 ∉ rosterNames st →
      (⟨pi.1, pi.2.mmr, roles_to_string pi.2.roles⟩ : RemRow) ∈ remRows := by
    intro pi hpi hm
    rw [hrem]
    exact List.mem_filterMap.mpr ⟨pi, hpi, by rw [if_neg hm]⟩
  have hnd1 : (remRows.map (fun r => r.name.trim)).Nodup := by
    rw [hrem]
    exact rem_names_nodup (rosterNames st) st.all_players hinv.player_keys_nodup htrimN
  have hrowname : ∀ row ∈ remRows, ∃ pi, pi ∈ st.all_players ∧
      pi.1 ∉ rosterNames st ∧ row.name.trim = pi.1 ∧ row.mmr = pi.2.mmr ∧
      parse_roles_with_priority row.roles.trim = pi.2.roles := by
    intro row hrow
    obtain ⟨pi, hpi, hm, rfl⟩ := hremMem row hrow
    refine ⟨pi, hpi, hm, ?_, rfl, ?_⟩
    · show pi.1.trim = pi.1
      exact htrimN pi hpi
    · show parse_roles_with_priority ((roles_to_string pi.2.roles).trim) = pi.2.roles
      exact hprint pi hpi
  have hfreshRem : ∀ row ∈ remRows, row.name.trim ∉ rosterNames st := by
    intro row hrow
    obtain ⟨pi, _, hm, hname, _, _⟩ := hrowname row hrow
    rw [hname]
    exact hm
  have hroles1 : ∀ row ∈ remRows,
      ((parse_roles_with_priority row.roles.trim).map Prod.fst).Nodup := by
    intro row hrow
    obtain ⟨pi, hpi, _, _, _, hparse⟩ := hrowname row hrow
    rw [hparse]
    exact hinv.roles_nodup pi hpi
  have hinv0 : Inv (clear_state st) := clear_state_inv st hinv.pool_keys_nodup
  have hfresh0 : ∀ row ∈ remRows,
      row.name.trim ∉ dkeys (clear_state st).all_players := by
    intro row _ hc
    exact List.not_mem_nil _ hc
  have hinv1 : Inv st₁ := by
    rw [hst1]
    exact phase1_facts remRows (clear_state st) hinv0 rfl rfl hfresh0 hnd1 hroles1
  have hst1_teams : st₁.teams = [] := by
    rw [hst1, phase1_teams]
    rfl
  have hst1_hist : st₁.draft_history = [] := by
    rw [hst1, phase1_hist]
    rfl
  have hlook1_hit : ∀ pi ∈ st.all_players, pi.1 ∉ rosterNames st →
      dlookup st₁.all_players pi.1 = some pi.2 := by
    intro pi hpi hm
    have h := phase1_lookup_hit remRows (clear_state st)
      (⟨pi.1, pi.2.mmr, roles_to_string pi.2.roles⟩ : RemRow) (hremIn pi hpi hm) hnd1
    have h' : dlookup st₁.all_players pi.1.trim
        = some ⟨pi.2.mmr,
            parse_roles_with_priority ((roles_to_string pi.2.roles).trim)⟩ := by
      rw [hst1]; exact h
    rw [htrimN pi hpi] at h'
    rw [h', hprint pi hpi]
  have hlook1_missA : ∀ p ∈ rosterNames st, dlookup st₁.all_players p = none := by
    intro p hp
    rw [hst1, phase1_lookup_miss remRows (clear_state st) p ?hne]
    · rfl
    case hne =>
      intro row hrow hc
      apply hfreshRem row hrow
      rw [hc]
      exact hp
  have hlook1_missB : ∀ p, dlookup st.all_players p = none →
      dlookup st₁.all_players p = none := by
    intro p hp
    rw [hst1, phase1_lookup_miss remRows (clear_state st) p ?hne2]
    · rfl
    case hne2 =>
      intro row hrow hc
      obtain ⟨pi, hpi, _, hname, _, _⟩ := hrowname row hrow
      rw [hname] at hc
      rw [dlookup_eq_none_iff_not_mem] at hp
      apply hp
      rw [← hc]
      exact List.mem_map_of_mem Prod.fst hpi
  have hgroups : group_team_rows teamRows = st.teams.map (fun td =>
      (td.1, td.2.players.map (fun pr => (pr.1, pr.2, F pr.1)))) := by
    rw [hteamRows, group_team_rows_eq]
    refine group_flat st.teams [] F htrimT hneT ?_ hinv.team_keys_nodup
      (by intro td _ hc; cases hc)
    intro td htd pr hpr
    refine ⟨?_, htrimR td htd pr hpr⟩
    have hros : pr.1 ∈ rosterNames st :=
      List.mem_flatMap.mpr ⟨td, htd, List.mem_map_of_mem Prod.fst hpr⟩
    obtain ⟨info, hinfo⟩ := Option.isSome_iff_exists.mp (hinv.roster_known pr.1 hros)
    exact htrimN (pr.1, info) (dlookup_some_mem hinfo)
  have hdraftNames : ∀ p ∈ rosterNames st, ∃ td, td ∈ st.teams ∧
      ∃ pr, pr ∈ (td.2 : TeamData).players ∧ (pr.1 : String) = p := by
    intro p hp
    obtain ⟨td, htd, hmem⟩ := List.mem_flatMap.mp hp
    obtain ⟨pr, hpr, heq⟩ := List.mem_map.mp hmem
    exact ⟨td, htd, pr, hpr, heq⟩
  have hpool1 : ∀ r q, q ∈ poolGet st₁.players_by_role r ↔
      ∃ row ∈ remRows, q = row.name.trim ∧
        r ∈ (parse_roles_with_priority row.roles.trim).map Prod.fst := by
    intro r q
    rw [hst1]
    show q ∈ poolOf (remRows.foldl (fun s row => load_rem_row s row.name.trim row.mmr
      (parse_roles_with_priority row.roles.trim)) (clear_state st)) r ↔ _
    rw [phase1_pool_mem]
    have hclear : poolOf (clear_state st) r = [] := poolGet_clear st.players_by_role r
    rw [hclear]
    simp
  have hpoolRoster : ∀ p ∈ rosterNames st, ∀ r,
      p ∉ poolGet st₁.players_by_role r := by
    intro p hp r hc
    rw [hpool1 r p] at hc
    obtain ⟨row, hrow, heq, _⟩ := hc
    apply hfreshRem row hrow
    rw [← heq]
    exact hp
  have hGkeys : dkeys (group_team_rows teamRows) = dkeys st.teams := by
    rw [hgroups]
    unfold dkeys
    rw [List.map_map]
    exact List.map_congr_left (fun td _ => rfl)
  obtain ⟨G1, G2, G3, G4⟩ := load_groups_facts (group_team_rows teamRows) st₁
    hst1_hist hinv1.pool_keys_nodup
    (by rw [hGkeys]; exact hinv.team_keys_nodup)
    (by intro g _ hc; rw [hst1_teams] at hc; cases hc)
    (by
      intro g hg e he r
      rw [hgroups] at hg
      obtain ⟨td, htd, rfl⟩ := List.mem_map.mp hg
      obtain ⟨pr, hpr, rfl⟩ := List.mem_map.mp he
      exact hpoolRoster pr.1
        (List.mem_flatMap.mpr ⟨td, htd, List.mem_map_of_mem Prod.fst hpr⟩) r)
    (by
      intro g hg e he
      rw [hgroups] at hg
      obtain ⟨td, htd, rfl⟩ := List.mem_map.mp hg
      obtain ⟨pr, hpr, rfl⟩ := List.mem_map.mp he
      exact hlook1_missA pr.1
        (List.mem_flatMap.mpr ⟨td, htd, List.mem_map_of_mem Prod.fst hpr⟩))
    (by
      rw [hgroups, flat_names_eq]
      exact hinv.roster_nodup)
  have hst2_pools : st₂.players_by_role = st₁.players_by_role := by
    rw [hst2]; exact G1
  have hst2_hist : st₂.draft_history = [] := by
    rw [hst2]; exact G4
  have hst2_all : st₂.all_players = st₁.all_players
      ++ st.teams.flatMap (fun td => td.2.players.map
          (fun pr => (pr.1, (⟨F pr.1, []⟩ : PlayerInfo)))) := by
    rw [hst2, G2, hgroups, flat_recs_eq]
  have hst2_teams : st₂.teams
      = st.teams.map (fun td => (td.1, (⟨td.2.players, 0⟩ : TeamData))) := by
    rw [hst2, G3, hst1_teams, hgroups, block_teams_eq, List.nil_append]
  have hkeysD : dkeys (st.teams.flatMap (fun td => td.2.players.map
      (fun pr => (pr.1, (⟨F pr.1, []⟩ : PlayerInfo))))) = rosterNames st := by
    rw [flat_recs_keys]
    rfl
  have hlook2_drafted : ∀ p ∈ rosterNames st,
      dlookup st₂.all_players p = some ⟨F p, []⟩ := by
    intro p hp
    rw [hst2_all, dlookup_append, hlook1_missA p hp, opt_none_or]
    apply dlookup_eq_some_of_mem_nodup
    · rw [hkeysD]; exact hinv.roster_nodup
    · obtain ⟨td, htd, pr, hpr, hpreq⟩ := hdraftNames p hp
      refine List.mem_flatMap.mpr ⟨td, htd, List.mem_map.mpr ⟨pr, hpr, ?_⟩⟩
      rw [hpreq]
  refine ⟨?_, ?_, ?_, ?_, ?_⟩
  · intro p hp
    rw [hall2, hst2_all, dlookup_append]
    cases hcase : dlookup st.all_players p with
    | some info =>
        rw [hlook1_hit (p, info) (dlookup_some_mem hcase) hp, opt_some_or]
    | none =>
        rw [hlook1_missB p hcase, opt_none_or,
          (dlookup_eq_none_iff_not_mem _ _).mpr (by rw [hkeysD]; exact hp)]
  · intro p hp
    rw [hall2, hlook2_drafted p hp]
    rfl
  · intro r q
    have hpq : poolOf (load_state st remRows teamRows) r
        = poolGet st₁.players_by_role r := by
      show poolGet (load_state st remRows teamRows).players_by_role r = _
      rw [hpools2, hst2_pools]
    rw [show (q ∈ poolOf (load_state st remRows teamRows) r)
        = (q ∈ poolGet st₁.players_by_role r) from congrArg _ hpq,
      hpool1 r q]
    constructor
    · rintro ⟨row, hrow, rfl, hr⟩
      obtain ⟨pi, hpi, hm, hname, _, hparse⟩ := hrowname row hrow
      rw [hparse] at hr
      rw [hname]
      obtain ⟨rp, hrp, hrpeq⟩ := List.mem_map.mp hr
      have hpc := hinv.pool_complete pi hpi hm rp hrp
      rw [hrpeq] at hpc
      exact hpc
    · intro hq
      obtain ⟨hrn, hnros⟩ := (mem_poolOf_iff_of_inv st hinv r q).mp hq
      obtain ⟨info, hinfo⟩ := Option.isSome_iff_exists.mp (roleNames_known st hrn)
      have hpi : (q, info) ∈ st.all_players := dlookup_some_mem hinfo
      refine ⟨⟨q, info.mmr, roles_to_string info.roles⟩, hremIn (q, info) hpi hnros,
        ?_, ?_⟩
      · show q = q.trim
        exact (htrimN (q, info) hpi).symm
      · show r ∈ (parse_roles_with_priority
            ((roles_to_string info.roles).trim)).map Prod.fst
        rw [hprint (q, info) hpi]
        unfold roleNamesOf recOf at hrn
        rw [hinfo] at hrn
        exact hrn
  · rw [hteams2, hst2_teams, List.map_map]
    have hfix : ∀ td ∈ st.teams, ((fun td => (td.1, (⟨td.2.players,
        if td.2.players = [] then 0
        else avgOf st₂.all_players td.2.players⟩ : TeamData))) ∘
        (fun td => (td.1, (⟨td.2.players, 0⟩ : TeamData)))) td = td := by
      intro td htd
      show (td.1, (⟨td.2.players, if td.2.players = [] then 0
        else avgOf st₂.all_players td.2.players⟩ : TeamData)) = td
      rw [if_neg (hneT td htd)]
      have havgeq : avgOf st₂.all_players td.2.players
          = avgOf st.all_players td.2.players := by
        unfold avgOf
        rw [if_neg (hneT td htd), if_neg (hneT td htd)]
        have hmapeq : td.2.players.map
            (fun pr => (((dlookup st₂.all_players pr.1).getD defaultInfo).mmr : ℚ))
            = td.2.players.map
            (fun pr => (((dlookup st.all_players pr.1).getD defaultInfo).mmr : ℚ)) := by
          apply List.map_congr_left
          intro pr hpr
          have hros : pr.1 ∈ rosterNames st :=
            List.mem_flatMap.mpr ⟨td, htd, List.mem_map_of_mem Prod.fst hpr⟩
          rw [hlook2_drafted pr.1 hros]
          rfl
        rw [hmapeq]
      rw [havgeq, ← havg td htd]
    exact (List.map_congr_left hfix).trans (List.map_id _)
  · rw [hhist2, hst2_hist]

set_option maxRecDepth 2500

/-- C6 counterexample: after save-then-load of `stSave`, the drafted player
`P1` has lost its recorded role list (the teams file stores no roles), and
the empty team `E` has disappeared entirely (it produced no rows); neither
the PlayerRecord set nor the team dictionary is reproduced identically. -/
theorem claim6_counterexample :
    (recOf stSave "P1").roles = [("carry", 1)] ∧
    (recOf (load_state stSave (save_state stSave).1 (save_state stSave).2) "P1").roles
      = [] ∧
    dlookup stSave.teams "E" = some ⟨[], 0⟩ ∧
    dlookup (load_state stSave (save_state stSave).1 (save_state stSave).2).teams "E"
      = none := by
  with_unfolding_all decide

/-- Witness for C6 on `stRound`: the undrafted record returns identically,
the drafted `P1` returns with rating 300 and empty roles, the team dictionary
returns exactly, and the history is empty. -/
theorem claim6_save_load_roundtrip_witness :
    dlookup (load_state stRound (save_state stRound).1 (save_state stRound).2).all_players
      "C9x" = some ⟨420, [("carry", 1)]⟩ ∧
    dlookup (load_state stRound (save_state stRound).1 (save_state stRound).2).all_players
      "P1" = some ⟨300, []⟩ ∧
    (load_state stRound (save_state stRound).1 (save_state stRound).2).teams
      = stRound.teams ∧
    (load_state stRound (save_state stRound).1 (save_state stRound).2).draft_history
      = [] := by
  obtain ⟨h1, h2, _h3, h4, h5⟩ := claim6_save_load_roundtrip stRound
    (by constructor <;> decide)
    (by unfold AvgOk; with_unfolding_all decide)
    (by with_unfolding_all decide)
    (by with_unfolding_all decide)
    (by with_unfolding_all decide)
    (by decide)
    (by with_unfolding_all decide)
  refine ⟨?_, ?_, h4, h5⟩
  · rw [h1 "C9x" (by decide)]
    rfl
  · rw [h2 "P1" (by decide)]
    rfl

/-! ### C4: player/team exclusivity -/

/-- C4: the exclusivity invariant is preserved by a valid pick (which also
removes the picked player from every pool), by captain-add of an UNKNOWN
name (which lands in no pool), by undo, and by loading a well-formed file;
under the invariant, pool membership is exactly role-priority membership
plus being team-free, and every name is on at most one team (its roster
count is at most 1). -/
theorem claim4_exclusivity :
    (∀ st tid role pos segs p r₀, Inv st → (dlookup st.teams tid).isSome = true →
      resolveSegments pos segs = some p → p ∈ poolOf st r₀ →
      Inv (pick_player_from_position st tid role pos segs).2 ∧
      (∀ r, p ∉ poolOf (pick_player_from_position st tid role pos segs).2 r)) ∧
    (∀ st tid name mmr, Inv st → dlookup st.all_players name = none →
      Inv (add_captain_to_team st tid name mmr) ∧
      (∀ r, name ∉ poolOf (add_captain_to_team st tid name mmr) r)) ∧
    (∀ st, Inv st → Inv (undo_last_pick st).2) ∧
    (∀ st rows, (dkeys st.players_by_role).Nodup → RowsWF rows →
      Inv (load_player_data st rows)) ∧
    (∀ st, Inv st →
      (∀ q r, q ∈ poolOf st r ↔ (r ∈ roleNamesOf st q ∧ q ∉ rosterNames st)) ∧
      (∀ q, (rosterNames st).count q ≤ 1)) := by
  refine ⟨?_, ?_, ?_, ?_, ?_⟩
  · intro st tid role pos segs p r₀ hinv htid hres hr₀
    obtain ⟨h1, _, h3, _⟩ := pick_preserves_inv st tid role pos segs p r₀ hinv htid hres hr₀
    exact ⟨h1, h3⟩
  · intro st tid name mmr hinv hunk
    obtain ⟨h1, h2, _⟩ := captain_add_preserves_inv st tid name mmr hinv hunk
    exact ⟨h1, h2⟩
  · intro st hinv
    exact undo_preserves_inv st hinv
  · intro st rows hkeys hwf
    unfold load_player_data
    exact load_rows_inv rows (clear_state st) (clear_state_inv st hkeys) rfl rfl
      (fun row _ hc => List.not_mem_nil _ hc) hwf.1 hwf.2
  · intro st hinv
    exact ⟨fun q r => mem_poolOf_iff_of_inv st hinv r q,
      fun q => List.nodup_iff_count_le_one.mp hinv.roster_nodup q⟩

/-- C4 counterexample: adding the already-known pooled player `A` as captain
puts them on team `T` while leaving them in the carry pool — membership and
pool membership are not mutually exclusive after a captain-add of a known
name. -/
theorem claim4_counterexample :
    "A" ∈ rosterNames (add_captain_to_team stUndo "T" "A" 3000) ∧
    "A" ∈ poolOf (add_captain_to_team stUndo "T" "A" 3000) "carry" := by
  with_unfolding_all decide

/-- Witness for C4: on the concrete two-candidate state, the picked player
`A` is gone from every role pool after the pick. -/
theorem claim4_exclusivity_witness :
    Inv stUndo ∧
    (∀ r, "A" ∉ poolOf (pick_player_from_position stUndo "T" "carry" 10 segsUndo).2 r) := by
  refine ⟨by constructor <;> decide, ?_⟩
  exact (claim4_exclusivity.1 stUndo "T" "carry" 10 segsUndo "A" "carry"
    (by constructor <;> decide) (by decide) (by with_unfolding_all decide)
    (by decide)).2

/-! ### C9: partial loads -/

/-- C9: `load_player_data` on a file whose middle row has the non-numeric
rating `"xyz"` keeps the row before it (`Alice`), drops the row after it
(`Carol`), and wipes the pre-existing state (the previously known `P1` is
gone): the load neither fully succeeds nor leaves the state unchanged, so
loading is not atomic with respect to malformed input. -/
theorem claim9_partial_load :
    pyInt "xyz" = none ∧
    dlookup (load_player_data stSave rows9).all_players "Alice"
      = some ⟨300, [("carry", 1)]⟩ ∧
    dlookup (load_player_data stSave rows9).all_players "Carol" = none ∧
    dlookup (load_player_data stSave rows9).all_players "P1" = none ∧
    load_player_data stSave rows9 ≠ stSave := by
  with_unfolding_all decide

end DraftWheel
